import Mathlib

/-!
# Verification of the clox core (compiler / VM / GC) against its specification

A shallow embedding, in Lean 4, of the parts of the clox bytecode
interpreter that the spec claims talk about: the tagged `Value`
representation (value.h), the open-addressing hash table (table.c), string
interning (object.c), the open-upvalue list and the calling convention
(vm.c), the mark-sweep collector (memory.c), the scanner (scanner.c) and
the Pratt expression parser (compiler.c).

Machine pointers are modelled as natural-number identities (`sid`, heap
references), C arrays as Lean lists, and the unbounded probing loops of
table.c as fueled recursions: the fuel equals the table capacity, which
suffices exactly when the table has a free slot - the same condition under
which the C loops terminate.
-/

namespace Clox

/-- Runtime values (value.h, tagged-union branch). Doubles are abstracted
to integers: no claim below depends on floating-point arithmetic, only on
the tag discipline. An object value carries the heap reference. -/
inductive Value where
  | vBool (b : Bool)
  | vNil
  | vNumber (n : Int)
  | vObj (ref : Nat)
deriving DecidableEq, Repr

instance : Inhabited Value := ⟨Value.vNil⟩

/-- Interned-string object (object.h `ObjString`): an object identity
(`sid`, the pointer), the byte sequence, and the cached hash. The C
`length` field always equals the length of `chars` and is modelled as
`chars.length`. -/
structure ObjString where
  sid : Nat
  chars : List Nat
  hash : Nat
deriving DecidableEq, Repr

/-- Hash table entry (table.h): `key == NULL` is modelled by `none`.
An empty bucket has `key = none, value = nil`; a tombstone has
`key = none` and a non-nil value. -/
structure Entry where
  key : Option ObjString
  value : Value
deriving DecidableEq, Repr

instance : Inhabited Entry := ⟨⟨none, Value.vNil⟩⟩

/-- Hash table (table.h): `count` counts real entries plus tombstones. -/
structure Table where
  count : Nat
  capacity : Nat
  entries : List Entry
deriving DecidableEq, Repr

/-- `initTable` (table.c). -/
def initTable : Table := ⟨0, 0, []⟩

/-- An entirely empty bucket (`key == NULL` and a nil value). -/
def Entry.isEmptyBucket (e : Entry) : Bool :=
  e.key = none && e.value = Value.vNil

/-- The C expression `entries[i]` (in-range in every verified run;
`getD` keeps the model total). -/
def bucketAt (entries : List Entry) (i : Nat) : Entry := entries.getD i default

/-- The bucket visited `s` linear-probing steps after starting at `h`. -/
def probe (cap h s : Nat) : Nat := (h + s) % cap

/-- `findEntry`'s probing loop (table.c). `index` is the current probe
position, `tombstone` the first tombstone seen so far. The C loop has no
bound; the fuel is the surrounding capacity, enough whenever some bucket
is entirely empty (the condition under which the C loop terminates). -/
def findEntryAux (entries : List Entry) (capacity : Nat) (key : ObjString) :
    Nat → Nat → Option Nat → Option Nat
  | 0, _, _ => none
  | fuel + 1, index, tombstone =>
    let entry := bucketAt entries index
    match entry.key with
    | none =>
      if entry.value = Value.vNil then
        -- empty entry: reuse tombstone if possible
        some (tombstone.getD index)
      else
        -- found a tombstone; save the location of the first one
        findEntryAux entries capacity key fuel ((index + 1) % capacity)
          (tombstone.getD index |> some)
    | some k =>
      if k.sid = key.sid then  -- pointer equality, relies on interning
        some index
      else
        findEntryAux entries capacity key fuel ((index + 1) % capacity) tombstone

/-- `findEntry` (table.c): start probing at `hash % capacity`. -/
def findEntry (entries : List Entry) (capacity : Nat) (key : ObjString) : Option Nat :=
  findEntryAux entries capacity key capacity (key.hash % capacity) none

/-- `tableGet` (table.c). The C version returns a boolean and writes
through an out-pointer; here `none` is the `false` case. -/
def tableGet (t : Table) (key : ObjString) : Option Value :=
  if t.count = 0 then none
  else
    match findEntry t.entries t.capacity key with
    | none => none
    | some i =>
      let entry := bucketAt t.entries i
      match entry.key with
      | none => none
      | some _ => some entry.value

/-- `GROW_CAPACITY` (memory.h). Modelled from the spec: memory.h is not in
src/; the spec fixes no growth rule beyond the table growing when load
exceeds 0.75, and the standard clox rule (double, with a floor of 8) is
used. The table theorems do not depend on the exact rule. -/
def growCapacity (c : Nat) : Nat :=
  if c < 8 then 8 else 2 * c

/-- One re-insertion step of `adjustCapacity` (table.c): skip empty and
tombstone slots, re-place a key at its `findEntry` position in the new
array, and count it. -/
def adjustStep (capacity : Nat) (acc : Nat × List Entry) (entry : Entry) : Nat × List Entry :=
  match entry.key with
  | none => acc
  | some k =>
    match findEntry acc.2 capacity k with
    | none => acc
    | some dest => (acc.1 + 1, acc.2.set dest ⟨some k, entry.value⟩)

/-- `adjustCapacity` (table.c): allocate a fresh all-empty array, re-insert
every existing entry (discarding tombstones), recompute `count`. -/
def adjustCapacity (t : Table) (capacity : Nat) : Table :=
  let init : Nat × List Entry := (0, List.replicate capacity default)
  let res := t.entries.foldl (adjustStep capacity) init
  ⟨res.1, capacity, res.2⟩

/-- The probe-and-write half of `tableSet` (table.c), after the optional
resize: find the key's bucket, bump `count` only when a fresh entry lands
in an entirely empty bucket, write the entry. -/
def tableSetStep (t : Table) (key : ObjString) (value : Value) : Bool × Table :=
  match findEntry t.entries t.capacity key with
  | none => (false, t)
  | some i =>
    let entry := bucketAt t.entries i
    let isNewKey := entry.key = none
    let count' := if isNewKey && entry.value = Value.vNil then t.count + 1 else t.count
    (isNewKey, ⟨count', t.capacity, t.entries.set i ⟨some key, value⟩⟩)

/-- `tableSet` (table.c). The load test `count + 1 > capacity * 0.75`
is exact double arithmetic for table-sized ints and is rendered as
`4 * (count + 1) > 3 * capacity`. Returns (isNewKey, updated table). -/
def tableSet (t : Table) (key : ObjString) (value : Value) : Bool × Table :=
  let t := if 4 * (t.count + 1) > 3 * t.capacity
           then adjustCapacity t (growCapacity t.capacity) else t
  tableSetStep t key value

/-- `tableDelete` (table.c): place a tombstone (`key = NULL`,
`value = true`); `count` is left unchanged. -/
def tableDelete (t : Table) (key : ObjString) : Bool × Table :=
  if t.count = 0 then (false, t)
  else
    match findEntry t.entries t.capacity key with
    | none => (false, t)
    | some i =>
      let entry := bucketAt t.entries i
      match entry.key with
      | none => (false, t)
      | some _ =>
        (true, ⟨t.count, t.capacity, t.entries.set i ⟨none, Value.vBool true⟩⟩)

/-- `tableFindString`'s probing loop (table.c): like `findEntry` but
compares actual string contents (length, hash, bytes) instead of pointers,
and stops only at entirely empty buckets. -/
def tableFindStringAux (entries : List Entry) (capacity : Nat)
    (chars : List Nat) (length : Nat) (hash : Nat) :
    Nat → Nat → Option ObjString
  | 0, _ => none
  | fuel + 1, index =>
    let entry := bucketAt entries index
    match entry.key with
    | none =>
      if entry.value = Value.vNil then none
      else tableFindStringAux entries capacity chars length hash fuel ((index + 1) % capacity)
    | some k =>
      if k.chars.length = length ∧ k.hash = hash ∧ k.chars = chars then some k
      else tableFindStringAux entries capacity chars length hash fuel ((index + 1) % capacity)

/-- `tableFindString` (table.c). -/
def tableFindString (t : Table) (chars : List Nat) (length : Nat) (hash : Nat) :
    Option ObjString :=
  if t.count = 0 then none
  else tableFindStringAux t.entries t.capacity chars length hash t.capacity (hash % t.capacity)

/-! ## The hash-table invariant

`probe cap h s` is the bucket visited `s` linear-probing steps after
starting at bucket `h`. -/

/-- The hash a stored key probes from (0 for a keyless bucket). -/
def slotHash (entries : List Entry) (i : Nat) : Nat :=
  ((bucketAt entries i).key.map ObjString.hash).getD 0

/-- Structural well-formedness of the bucket array:
* distinct buckets never hold keys of the same object identity;
* every stored key is reachable from its home bucket `hash % capacity`
  by linear probing without crossing an entirely empty bucket
  (tombstones are crossed). -/
def EntriesWF (entries : List Entry) (cap : Nat) : Prop :=
  (∀ i, i < cap → ∀ j, j < cap → i ≠ j →
    ((bucketAt entries i).key.map ObjString.sid ≠ (bucketAt entries j).key.map ObjString.sid ∨
      (bucketAt entries i).key = none)) ∧
  (∀ i, i < cap → (bucketAt entries i).key ≠ none →
    ∃ s, s < cap ∧ probe cap (slotHash entries i % cap) s = i ∧
      ∀ s', s' < s →
        (bucketAt entries (probe cap (slotHash entries i % cap) s')).isEmptyBucket = false)

/-- Well-formedness of a whole table: the array has `capacity` buckets,
`count` dominates the number of non-empty buckets (the C `count` counts
keys plus tombstones), the load factor stays at or below 3/4, and the
bucket array is structurally well-formed. -/
def TableWF (t : Table) : Prop :=
  t.entries.length = t.capacity ∧
  t.entries.countP (fun e => !e.isEmptyBucket) ≤ t.count ∧
  4 * t.count ≤ 3 * t.capacity ∧
  EntriesWF t.entries t.capacity

/-- No bucket holds a key of the same object identity as `q`
(the pointer `q` is not a key of the table). -/
def EntriesAbsent (entries : List Entry) (q : ObjString) : Prop :=
  ∀ i, i < entries.length → (bucketAt entries i).key.map ObjString.sid ≠ some q.sid

/-- `q` is a key of the table (pointer identity aside, the very struct). -/
def HasKey (entries : List Entry) (q : ObjString) : Prop :=
  ∃ i, i < entries.length ∧ (bucketAt entries i).key = some q

/-- The table maps the key object `q` to `v`. -/
def MapsTo (entries : List Entry) (q : ObjString) (v : Value) : Prop :=
  ∃ i, i < entries.length ∧ bucketAt entries i = ⟨some q, v⟩

/-- Pointer-model hygiene: any stored key sharing `q`'s object identity is
`q` itself. In C this is automatic - two distinct live `ObjString`s are
distinct pointers; here identities are explicit. -/
def SidCoherent (entries : List Entry) (q : ObjString) : Prop :=
  ∀ i, i < entries.length →
    ((bucketAt entries i).key.map ObjString.sid = some q.sid →
      (bucketAt entries i).key = some q)

/-- A probing step can pass bucket `i` while searching for `key`: the
bucket neither matches `key` nor is entirely empty. -/
def passableAt (entries : List Entry) (key : ObjString) (i : Nat) : Prop :=
  (∀ k', (bucketAt entries i).key = some k' → k'.sid ≠ key.sid) ∧
    (bucketAt entries i).isEmptyBucket = false

instance decEntriesWF (entries : List Entry) (cap : Nat) : Decidable (EntriesWF entries cap) := by
  unfold EntriesWF
  exact instDecidableAnd

instance decTableWF (t : Table) : Decidable (TableWF t) := by
  unfold TableWF
  exact instDecidableAnd

instance decEntriesAbsent (entries : List Entry) (q : ObjString) :
    Decidable (EntriesAbsent entries q) := by
  unfold EntriesAbsent
  infer_instance

instance decSidCoherent (entries : List Entry) (q : ObjString) :
    Decidable (SidCoherent entries q) := by
  unfold SidCoherent
  infer_instance

/-- A four-bucket table holding two keys, used as concrete input. -/
def kEx : ObjString := ⟨1, [10], 1⟩

def kEx' : ObjString := ⟨2, [20], 2⟩

def tEx : Table :=
  ⟨2, 4, [⟨none, Value.vNil⟩, ⟨some kEx, Value.vNumber 7⟩,
    ⟨some kEx', Value.vNumber 9⟩, ⟨none, Value.vNil⟩]⟩

/-! ### `adjustCapacity` and `tableSet`, characterised -/

/-- Number of keys stored in a bucket list. -/
def keyCount (entries : List Entry) : Nat := entries.countP (fun e => e.key.isSome)

/-- Keys of distinct buckets have distinct identities, in list form. -/
def entryKeysDistinct (entries : List Entry) : Prop :=
  entries.Pairwise (fun e₁ e₂ =>
    ∀ k₁ k₂, e₁.key = some k₁ → e₂.key = some k₂ → k₁.sid ≠ k₂.sid)

/-- Invariant carried through `adjustCapacity`'s re-insertion fold:
`done` is the prefix of the old bucket array already processed, `acc` the
(count, buckets) accumulator. -/
structure AdjustInv (capacity : Nat) (done : List Entry) (acc : Nat × List Entry) : Prop where
  len : acc.2.length = capacity
  cnt : acc.2.countP (fun e => !e.isEmptyBucket) = acc.1
  keys : acc.1 = keyCount done
  noTomb : ∀ i, i < capacity → (bucketAt acc.2 i).key = none →
    (bucketAt acc.2 i).value = Value.vNil
  wf : EntriesWF acc.2 capacity
  maps : ∀ q v, MapsTo acc.2 q v ↔ ∃ e ∈ done, e.key = some q ∧ e.value = v

/-! ## OP_SET_GLOBAL (vm.c `run`) -/

/-- Outcome of the OP_SET_GLOBAL dispatch case: normal continuation with
the updated globals and untouched stack, or a runtime error
(`runtimeError` prints the message and resets the value stack). -/
inductive StepOut where
  | ok (globals : Table) (stack : List Value)
  | rtError (msg : String) (globals : Table) (stack : List Value)
deriving DecidableEq, Repr

/-- The OP_SET_GLOBAL case of `run` (vm.c): store `peek(0)` under `name`;
if `tableSet` reports a new key the variable was undefined, so the zombie
entry is deleted again and a runtime error is raised; on success nothing
is popped. The C message is `"Undefined variable '%s'."` with the name
spliced in; the model keeps the format string. The stack top is the list
head. -/
def opSetGlobal (globals : Table) (stack : List Value) (name : ObjString) : StepOut :=
  let top := stack.headD Value.vNil
  match tableSet globals name top with
  | (true, g') =>
    StepOut.rtError "Undefined variable '%s'." (tableDelete g' name).2 []
  | (false, g') => StepOut.ok g' stack

instance decHasKey (entries : List Entry) (q : ObjString) : Decidable (HasKey entries q) := by
  unfold HasKey
  infer_instance

/-- A concrete globals table for the C6 witness: `nC6` is defined,
`mC6` is another binding. -/
def nC6 : ObjString := ⟨1, [10], 1⟩

def mC6 : ObjString := ⟨2, [20], 2⟩

def gC6 : Table :=
  ⟨2, 4, [⟨none, Value.vNil⟩, ⟨some nC6, Value.vNumber 7⟩,
    ⟨some mC6, Value.vNumber 9⟩, ⟨none, Value.vNil⟩]⟩

/-! ## String interning (object.c) -/

/-- FNV-1a (object.c `hashString`): 32-bit arithmetic, bytes cast to
`uint8_t`. -/
def hashString (chars : List Nat) : Nat :=
  chars.foldl (fun h b => ((h ^^^ (b % 256)) * 16777619) % 4294967296) 2166136261

/-- The string-interning state: `vm.strings` plus the allocator's supply
of fresh object identities (a C pointer of a newly malloc'ed object). -/
structure StrPool where
  strings : Table
  nextId : Nat
deriving Repr

/-- `allocateString` (object.c): build the `ObjString` and intern it by
`tableSet(&vm.strings, string, NIL_VAL)`. -/
def allocateString (st : StrPool) (chars : List Nat) (hash : Nat) : ObjString × StrPool :=
  let s : ObjString := ⟨st.nextId, chars, hash⟩
  (s, ⟨(tableSet st.strings s Value.vNil).2, st.nextId + 1⟩)

/-- `copyString` (object.c): look the bytes up in `vm.strings` first and
return the interned object on a hit; otherwise copy the bytes and
allocate. -/
def copyString (st : StrPool) (chars : List Nat) : ObjString × StrPool :=
  let hash := hashString chars
  match tableFindString st.strings chars chars.length hash with
  | some interned => (interned, st)
  | none => allocateString st chars hash

/-- `takeString` (object.c): like `copyString` but takes ownership of the
byte buffer, freeing it on an intern hit - pure memory management, so the
model coincides with `copyString`. -/
def takeString (st : StrPool) (chars : List Nat) : ObjString × StrPool :=
  let hash := hashString chars
  match tableFindString st.strings chars chars.length hash with
  | some interned => (interned, st)
  | none => allocateString st chars hash

/-- Pool states reachable from a fresh VM by any sequence of string
creations through `copyString` and `takeString`. -/
inductive PoolReached : StrPool → Prop where
  | init : PoolReached ⟨initTable, 0⟩
  | copy (st : StrPool) (chars : List Nat) :
      PoolReached st → PoolReached (copyString st chars).2
  | take (st : StrPool) (chars : List Nat) :
      PoolReached st → PoolReached (takeString st chars).2

/-- Invariant of reachable pools: the intern table is well-formed, every
key carries its FNV-1a hash and a previously allocated identity, and byte
sequences determine keys uniquely. -/
def PoolInv (st : StrPool) : Prop :=
  TableWF st.strings ∧
  (∀ k, HasKey st.strings.entries k → k.hash = hashString k.chars ∧ k.sid < st.nextId) ∧
  (∀ k k', HasKey st.strings.entries k → HasKey st.strings.entries k' →
    k.chars = k'.chars → k = k')

/-- Pool after interning the one-byte string 97 once. -/
def poolWit : StrPool := (copyString ⟨initTable, 0⟩ [97]).2

def kWit : ObjString := ⟨0, [97], hashString [97]⟩

/-! ## The open-upvalue list (vm.c) -/

/-- Where an upvalue's `location` points: an open upvalue points at a VM
value-stack slot, a closed one at its own `closed` field. -/
inductive UpvLoc where
  | stackSlot (i : Nat)
  | ownClosed
deriving DecidableEq, Repr

/-- Runtime upvalue object (object.h `ObjUpvalue`): object identity,
`location`, and the `closed` box. The intrusive `next` pointer is the
position in the model's list. -/
structure ObjUpvalueM where
  uid : Nat
  location : UpvLoc
  closed : Value
deriving DecidableEq, Repr

/-- `newUpvalue`. Modelled from the spec: object.c in src/ contains no
`newUpvalue` definition (it is declared in object.h only); per the spec an
upvalue starts open, pointing at the captured stack slot, and its `closed`
Value is Nil ("safe even when open - then `closed` is Nil"). -/
def newUpvalue (uid slot : Nat) : ObjUpvalueM :=
  ⟨uid, UpvLoc.stackSlot slot, Value.vNil⟩

/-- The C pointer comparison `upvalue->location > local`: open upvalues
point into the stack array, whose addresses grow with the slot index. -/
def locGt (l : UpvLoc) (slot : Nat) : Bool :=
  match l with
  | UpvLoc.stackSlot i => slot < i
  | UpvLoc.ownClosed => false

/-- The C pointer comparison `upvalue->location == local`. -/
def locEq (l : UpvLoc) (slot : Nat) : Bool :=
  match l with
  | UpvLoc.stackSlot i => i = slot
  | UpvLoc.ownClosed => false

/-- The C pointer comparison `upvalue->location >= last`. -/
def locGe (l : UpvLoc) (slot : Nat) : Bool :=
  match l with
  | UpvLoc.stackSlot i => slot ≤ i
  | UpvLoc.ownClosed => false

/-- Read through an upvalue's `location` (the C `*upvalue->location`). -/
def derefLoc (stack : List Value) (u : ObjUpvalueM) : Value :=
  match u.location with
  | UpvLoc.stackSlot i => stack.getD i Value.vNil
  | UpvLoc.ownClosed => u.closed

/-- `captureUpvalue` (vm.c): walk the descending open-upvalue list past
upvalues above the slot; reuse an existing upvalue for the slot, else
splice a fresh one in at the sorted position. Returns the upvalue and the
updated list; `fresh` is the new object's identity. -/
def captureUpvalue (lst : List ObjUpvalueM) (fresh : Nat) (slot : Nat) :
    ObjUpvalueM × List ObjUpvalueM :=
  match lst with
  | [] => (newUpvalue fresh slot, [newUpvalue fresh slot])
  | u :: rest =>
    if locGt u.location slot then
      let r := captureUpvalue rest fresh slot
      (r.1, u :: r.2)
    else if locEq u.location slot then
      (u, u :: rest)
    else
      (newUpvalue fresh slot, newUpvalue fresh slot :: u :: rest)

/-- `closeUpvalues(last)` (vm.c): while the head upvalue points at slot
`last` or above, copy the referenced stack value into `closed`, retarget
`location` to the upvalue's own `closed` field, and unlink it. Returns
(the upvalues just closed, the remaining open list). -/
def closeUpvalues (stack : List Value) (lst : List ObjUpvalueM) (last : Nat) :
    List ObjUpvalueM × List ObjUpvalueM :=
  match lst with
  | [] => ([], [])
  | u :: rest =>
    if locGe u.location last then
      let u' : ObjUpvalueM := ⟨u.uid, UpvLoc.ownClosed, derefLoc stack u⟩
      let r := closeUpvalues stack rest last
      (u' :: r.1, r.2)
    else ([], u :: rest)

/-- The stack slot an open upvalue points at (0 for a closed one; every
list the VM keeps is all-open). -/
def upvSlot (u : ObjUpvalueM) : Nat :=
  match u.location with
  | UpvLoc.stackSlot i => i
  | UpvLoc.ownClosed => 0

/-- Every upvalue on the open list is open. -/
def allOpen (lst : List ObjUpvalueM) : Prop :=
  ∀ u ∈ lst, u.location ≠ UpvLoc.ownClosed

/-- The open list is sorted by strictly descending stack slot (hence holds
at most one upvalue per slot). -/
def openSorted (lst : List ObjUpvalueM) : Prop :=
  lst.Pairwise (fun a b => upvSlot b < upvSlot a)

instance decAllOpen (lst : List ObjUpvalueM) : Decidable (allOpen lst) := by
  unfold allOpen
  infer_instance

instance decOpenSorted (lst : List ObjUpvalueM) : Decidable (openSorted lst) := by
  unfold openSorted
  exact List.instDecidablePairwise lst

/-- Concrete open-upvalue list for the C8 witness: slots 5, 3, 1. -/
def upvListC8 : List ObjUpvalueM :=
  [⟨0, UpvLoc.stackSlot 5, Value.vNil⟩, ⟨1, UpvLoc.stackSlot 3, Value.vNil⟩,
   ⟨2, UpvLoc.stackSlot 1, Value.vNil⟩]

def stackC8 : List Value :=
  [Value.vNumber 10, Value.vNumber 11, Value.vNumber 12, Value.vNumber 13,
   Value.vNumber 14, Value.vNumber 15]

/-! ## Closures and the calling convention (object.c `newClosure`, vm.c `call`) -/

def FRAMES_MAX : Nat := 64

/-- Function object (object.h `ObjFunction`), the parts closures and
calls touch: arity, upvalue count, and the chunk's code bytes (`ip` is an
index into them, 0 being `chunk.code`). -/
structure ObjFunctionM where
  arity : Nat
  upvalueCount : Nat
  code : List Nat
deriving DecidableEq, Repr

/-- Closure object (object.h `ObjClosure`): a function, the upvalue
array, and the redundantly stored upvalue count. The `Option`s model
C struct fields that may not have been written yet - `none` is
indeterminate (uninitialized) memory. -/
structure ObjClosureM where
  function : ObjFunctionM
  upvalues : Option (List Nat)
  upvalueCount : Option Nat
deriving DecidableEq, Repr

/-- `newClosure` (object.c, lines 26-30) exactly as written: allocate,
assign `closure->function = function;`, return. Neither
`closure->upvalues` nor `closure->upvalueCount` is ever written. -/
def newClosure (function : ObjFunctionM) : ObjClosureM :=
  ⟨function, none, none⟩

structure CallFrameM where
  closure : ObjClosureM
  ip : Nat
  slots : Nat
deriving DecidableEq, Repr

/-- The pieces of the VM that `call` (vm.c) reads and writes:
`frameCount` is `frames.length`, `stackTop` is `stack.length`. -/
structure VMCall where
  frames : List CallFrameM
  stack : List Value
deriving DecidableEq, Repr

/-- `call` (vm.c): arity check, frame-overflow check, then push a frame
with `ip = chunk.code` (index 0) and `slots = stackTop - argCount - 1`.
`runtimeError` prints the message, prints the stack trace and resets the
stacks; the model carries the message in `Except.error`. -/
def callFn (vmst : VMCall) (closure : ObjClosureM) (argCount : Nat) :
    Except String VMCall :=
  if argCount ≠ closure.function.arity then
    Except.error ("Expected " ++ toString closure.function.arity ++
      " arguments but got " ++ toString argCount ++ ".")
  else if vmst.frames.length = FRAMES_MAX then
    Except.error "Stack overflow."
  else
    Except.ok ⟨vmst.frames ++ [⟨closure, 0, vmst.stack.length - argCount - 1⟩], vmst.stack⟩

/-- Concrete inputs for the C9 witness: two frames, a callee and two
arguments on the stack, arity 2. -/
def closC9 : ObjClosureM := ⟨⟨2, 0, [0, 0]⟩, none, none⟩

def vmC9 : VMCall :=
  ⟨[], [Value.vNumber 1, Value.vObj 9, Value.vNumber 2, Value.vNumber 3]⟩

/-! ## OP_CLOSURE's upvalue population (vm.c `run`) -/

/-- What the new closure's i-th upvalue slot receives. -/
inductive UpvRef where
  | capturedSlot (slot : Nat)
  | fromParent (u : Nat)
deriving DecidableEq, Repr

/-- The upvalue-population loop of OP_CLOSURE (vm.c): for loop position
`i` and trailing byte pair `(isLocal, index)`, a non-zero `isLocal`
captures the current frame's stack slot `slots + index`; otherwise the
code assigns `frame->closure->upvalues[i]` - the loop position `i`, as
written in the source. `parentUpvalues` are the enclosing frame closure's
upvalue objects (by identity). -/
def opClosurePopulate : List (Nat × Nat) → Nat → List Nat → Nat → List UpvRef
  | [], _, _, _ => []
  | (isLocal, index) :: rest, i, parentUpvalues, frameSlots =>
    (if isLocal ≠ 0 then UpvRef.capturedSlot (frameSlots + index)
     else UpvRef.fromParent (parentUpvalues.getD i 0)) ::
      opClosurePopulate rest (i + 1) parentUpvalues frameSlots

/-! ## The garbage collector (memory.c) -/

/-- Heap object payloads as the collector sees them (object.h over
`Nat` references). `oClass` holds only a name - object.h's `ObjClass` has
no methods table. A closure's upvalue array is carried with its count, as
`blackenObject` iterates `upvalueCount` entries. -/
inductive ObjData where
  | oString
  | oFunction (name : Option Nat) (constants : List Value)
  | oNative
  | oClosure (function : Nat) (upvalues : List Nat) (upvalueCount : Nat)
  | oUpvalue (closed : Value)
  | oClass (name : Nat)
  | oInstance (klass : Nat) (fields : Table)
deriving DecidableEq, Repr

def heapGet (heap : List (Nat × ObjData)) (r : Nat) : Option ObjData :=
  (heap.find? (fun p => p.1 = r)).map Prod.snd

/-- Mark bits plus the gray worklist (its head is the stack top). -/
structure GCms where
  marks : List Nat
  gray : List Nat
deriving DecidableEq, Repr

/-- `markObject` (memory.c): skip when already marked, else set the mark
bit and push the object on the gray stack. -/
def markObject (st : GCms) (r : Nat) : GCms :=
  if r ∈ st.marks then st else ⟨r :: st.marks, r :: st.gray⟩

/-- `markObject` on a nullable reference (the `object == NULL` guard). -/
def markObjOpt (st : GCms) (r : Option Nat) : GCms :=
  match r with
  | none => st
  | some r => markObject st r

/-- `markValue` (memory.c): only object values get marked. -/
def markValue (st : GCms) (v : Value) : GCms :=
  match v with
  | Value.vObj r => markObject st r
  | _ => st

/-- `markArray` (memory.c). -/
def markArray (st : GCms) (vs : List Value) : GCms := vs.foldl markValue st

/-- `markTable`. Modelled from the spec: table.c in src/ contains no
`markTable` definition (memory.c calls it for the globals root); the
spec's root set includes the globals table, each entry contributing its
key object and its value. -/
def markTableM (st : GCms) (t : Table) : GCms :=
  t.entries.foldl (fun st e =>
    let st := match e.key with
      | some k => markObject st k.sid
      | none => st
    markValue st e.value) st

/-- `blackenObject` (memory.c, lines 79-114), case by case as written:
a class marks only its name; a closure marks its function and
`upvalueCount` upvalues; a function marks its name and constants; an
upvalue marks its `closed` Value; natives and strings mark nothing - and
the switch has no `OBJ_INSTANCE` case, so an instance marks nothing. -/
def blackenObject (heap : List (Nat × ObjData)) (st : GCms) (r : Nat) : GCms :=
  match heapGet heap r with
  | some (ObjData.oClass name) => markObject st name
  | some (ObjData.oClosure fn ups cnt) =>
    (List.range cnt).foldl (fun st i => markObject st (ups.getD i 0)) (markObject st fn)
  | some (ObjData.oFunction name consts) => markArray (markObjOpt st name) consts
  | some (ObjData.oUpvalue closed) => markValue st closed
  | some ObjData.oNative => st
  | some ObjData.oString => st
  | some (ObjData.oInstance _ _) => st
  | none => st

/-- `traceReferences` (memory.c): pop gray objects and blacken until the
worklist drains. Each object enters the gray stack at most once (it is
marked when pushed), so the C loop terminates; the fuel bounds the same
iteration count. -/
def traceReferences (heap : List (Nat × ObjData)) : Nat → GCms → GCms
  | 0, st => st
  | fuel + 1, st =>
    match st.gray with
    | [] => st
    | r :: rest => traceReferences heap fuel (blackenObject heap ⟨st.marks, rest⟩ r)

/-- `tableRemoveWhite`. Modelled from the spec: table.c in src/ contains
no `tableRemoveWhite` definition (memory.c calls it on `vm.strings`);
per the spec the weak-key sweep deletes every entry whose key object is
unmarked, before objects are freed. -/
def tableRemoveWhite (marks : List Nat) (t : Table) : Table :=
  t.entries.foldl (fun acc e =>
    match e.key with
    | some k => if k.sid ∈ marks then acc else (tableDelete acc k).2
    | none => acc) t

/-- `sweep` (memory.c): walk `vm.objects`, unlink and free unmarked
objects, clear the mark bit of the survivors. Returns (kept, freed), both
in list order. -/
def sweep (marks : List Nat) (objects : List Nat) : List Nat × List Nat :=
  (objects.filter (fun r => r ∈ marks), objects.filter (fun r => ¬ r ∈ marks))

/-- The VM pieces `collectGarbage` touches (vm.h): heap contents, the
intrusive object list, the value stack, the call frames' closures, the
open-upvalue list, globals, the intern table, and the active compiler
chain's functions. -/
structure VMgc where
  heap : List (Nat × ObjData)
  objects : List Nat
  stack : List Value
  frameClosures : List Nat
  openUpvalues : List Nat
  globals : Table
  strings : Table
  compilerFunctions : List Nat
deriving DecidableEq, Repr

/-- `markRoots` (memory.c): stack slots, frame closures, the open-upvalue
list, the globals table, the compiler chain. -/
def markRoots (vm : VMgc) : GCms :=
  let st : GCms := ⟨[], []⟩
  let st := vm.stack.foldl markValue st
  let st := vm.frameClosures.foldl markObject st
  let st := vm.openUpvalues.foldl markObject st
  let st := markTableM st vm.globals
  vm.compilerFunctions.foldl markObject st

structure GCResult where
  kept : List Nat
  freed : List Nat
  strings : Table
deriving DecidableEq, Repr

/-- `collectGarbage` (memory.c): mark roots, trace, weak-sweep the intern
table, sweep the object list. -/
def collectGarbage (fuel : Nat) (vm : VMgc) : GCResult :=
  let st := traceReferences vm.heap fuel (markRoots vm)
  let strings := tableRemoveWhite st.marks vm.strings
  let res := sweep st.marks vm.objects
  ⟨res.1, res.2, strings⟩

/-! ### Reachability, from the spec's words -/

def valueRefs (v : Value) : List Nat :=
  match v with
  | Value.vObj r => [r]
  | _ => []

def tableRefs (t : Table) : List Nat :=
  t.entries.foldl (fun acc e =>
    acc ++ (match e.key with
      | some k => [k.sid]
      | none => []) ++ valueRefs e.value) []

/-- The references an object holds, per the spec: a class references its
name (and methods table - absent from this object model); a closure its
function and upvalues; a function its name and constants; an upvalue its
closed Value; an instance its class and its fields table; strings and
natives nothing. -/
def specChildren (d : ObjData) : List Nat :=
  match d with
  | ObjData.oString => []
  | ObjData.oFunction name consts =>
    name.toList ++ consts.foldl (fun acc v => acc ++ valueRefs v) []
  | ObjData.oNative => []
  | ObjData.oClosure fn ups _ => fn :: ups
  | ObjData.oUpvalue closed => valueRefs closed
  | ObjData.oClass name => [name]
  | ObjData.oInstance klass fields => klass :: tableRefs fields

/-- The spec's root set: VM value stack, call-frame closures, the
open-upvalue list, the globals table, the active compiler chain. -/
def rootRefs (vm : VMgc) : List Nat :=
  vm.stack.foldl (fun acc v => acc ++ valueRefs v) [] ++
    vm.frameClosures ++ vm.openUpvalues ++ tableRefs vm.globals ++ vm.compilerFunctions

def reachStep (heap : List (Nat × ObjData)) (cur : List Nat) : List Nat :=
  (cur ++ cur.foldl (fun acc r =>
    acc ++ (match heapGet heap r with
      | some d => specChildren d
      | none => [])) []).dedup

def reachIter (heap : List (Nat × ObjData)) : Nat → List Nat → List Nat
  | 0, cur => cur
  | n + 1, cur => reachIter heap n (reachStep heap cur)

/-- Objects reachable from the roots (heap-size iterations of one-step
expansion reach the closure). -/
def specReachable (vm : VMgc) : List Nat :=
  reachIter vm.heap (vm.heap.length + 1) (rootRefs vm)

/-- A VM about to collect: the stack holds an instance of a class; the
class and its name are reachable only through the instance. -/
def vmC1 : VMgc :=
  ⟨[(0, ObjData.oClass 1), (1, ObjData.oString), (2, ObjData.oInstance 0 initTable)],
   [2, 0, 1], [Value.vObj 2], [], [], initTable, initTable, []⟩

/-! ## The scanner (scanner.c) -/

/-- Token types. Modelled from the spec: scanner.h is not in src/; §6 of
the spec lists the token types of the scanner contract, and compiler.c
uses these names. -/
inductive TokenType where
  | TOKEN_LEFT_PAREN
  | TOKEN_RIGHT_PAREN
  | TOKEN_LEFT_BRACE
  | TOKEN_RIGHT_BRACE
  | TOKEN_COMMA
  | TOKEN_DOT
  | TOKEN_MINUS
  | TOKEN_PLUS
  | TOKEN_SEMICOLON
  | TOKEN_SLASH
  | TOKEN_STAR
  | TOKEN_BANG
  | TOKEN_BANG_EQUAL
  | TOKEN_EQUAL
  | TOKEN_EQUAL_EQUAL
  | TOKEN_GREATER
  | TOKEN_GREATER_EQUAL
  | TOKEN_LESS
  | TOKEN_LESS_EQUAL
  | TOKEN_IDENTIFIER
  | TOKEN_STRING
  | TOKEN_NUMBER
  | TOKEN_AND
  | TOKEN_CLASS
  | TOKEN_ELSE
  | TOKEN_FALSE
  | TOKEN_FOR
  | TOKEN_FUN
  | TOKEN_IF
  | TOKEN_NIL
  | TOKEN_OR
  | TOKEN_PRINT
  | TOKEN_RETURN
  | TOKEN_SUPER
  | TOKEN_THIS
  | TOKEN_TRUE
  | TOKEN_VAR
  | TOKEN_WHILE
  | TOKEN_ERROR
  | TOKEN_EOF
deriving DecidableEq, Repr

/-- Scanner state (scanner.c): `start`/`current` are offsets into the
source; C's NUL terminator is the end of the char list. -/
structure ScannerM where
  source : List Char
  start : Nat
  current : Nat
  line : Nat
deriving DecidableEq, Repr

/-- `initScanner` (scanner.c). -/
def initScanner (source : List Char) : ScannerM := ⟨source, 0, 0, 1⟩

/-- `isDigit` (scanner.c). -/
def isDigitCh (c : Char) : Bool := '0' ≤ c && c ≤ '9'

/-- `isAtEnd` (scanner.c): `*current == '\0'`. -/
def scanAtEnd (s : ScannerM) : Bool := s.source.length ≤ s.current

/-- `peek` (scanner.c). -/
def peekCh (s : ScannerM) : Char := s.source.getD s.current (Char.ofNat 0)

/-- `peekNext` (scanner.c). -/
def peekNextCh (s : ScannerM) : Char :=
  if scanAtEnd s then Char.ofNat 0 else s.source.getD (s.current + 1) (Char.ofNat 0)

/-- `advance` (scanner.c). -/
def advanceCh (s : ScannerM) : Char × ScannerM :=
  (s.source.getD s.current (Char.ofNat 0), { s with current := s.current + 1 })

/-- `match` (scanner.c): conditionally advance. -/
def matchCh (s : ScannerM) (expected : Char) : Bool × ScannerM :=
  if scanAtEnd s then (false, s)
  else if s.source.getD s.current (Char.ofNat 0) ≠ expected then (false, s)
  else (true, { s with current := s.current + 1 })

/-- Token (scanner.h `Token`): for regular tokens the lexeme slice, for
error tokens the static message. -/
structure TokenM where
  ttype : TokenType
  lexeme : List Char
  line : Nat
deriving DecidableEq, Repr

/-- `makeToken` (scanner.c). -/
def makeToken (s : ScannerM) (t : TokenType) : TokenM :=
  ⟨t, (s.source.drop s.start).take (s.current - s.start), s.line⟩

/-- `errorToken` (scanner.c). -/
def errorToken (s : ScannerM) (message : List Char) : TokenM :=
  ⟨TokenType.TOKEN_ERROR, message, s.line⟩

/-- The `//` comment loop inside `skipWhiteSpace` (scanner.c). The fuel
bounds the loop by the remaining input length, as in C termination. -/
def skipLine : Nat → ScannerM → ScannerM
  | 0, s => s
  | fuel + 1, s =>
    if peekCh s ≠ '\n' ∧ ¬ scanAtEnd s then skipLine fuel (advanceCh s).2 else s

/-- `skipWhiteSpace` (scanner.c). -/
def skipWhiteSpace : Nat → ScannerM → ScannerM
  | 0, s => s
  | fuel + 1, s =>
    let c := peekCh s
    if c = ' ' ∨ c = '\r' ∨ c = '\t' then
      skipWhiteSpace fuel (advanceCh s).2
    else if c = '\n' then
      skipWhiteSpace fuel (advanceCh { s with line := s.line + 1 }).2
    else if c = '/' then
      if peekNextCh s = '/' then
        skipWhiteSpace fuel (skipLine (s.source.length + 1) s)
      else s
    else s

/-- The digit loops of `number` (scanner.c). -/
def scanDigits : Nat → ScannerM → ScannerM
  | 0, s => s
  | fuel + 1, s =>
    if isDigitCh (peekCh s) then scanDigits fuel (advanceCh s).2 else s

/-- `number` (scanner.c), after the first digit was consumed. -/
def numberScan (s : ScannerM) : ScannerM :=
  let s := scanDigits (s.source.length + 1) s
  if peekCh s = '.' ∧ isDigitCh (peekNextCh s) then
    scanDigits (s.source.length + 1) (advanceCh s).2
  else s

/-- The body loop of `string` (scanner.c). -/
def scanStringBody : Nat → ScannerM → ScannerM
  | 0, s => s
  | fuel + 1, s =>
    if peekCh s ≠ '"' ∧ ¬ scanAtEnd s then
      let s := if peekCh s = '\n' then { s with line := s.line + 1 } else s
      scanStringBody fuel (advanceCh s).2
    else s

/-- `string` (scanner.c). -/
def stringScan (s : ScannerM) : TokenM × ScannerM :=
  let s := scanStringBody (s.source.length + 1) s
  if scanAtEnd s then (errorToken s "Unterminated string.".toList, s)
  else
    let s := (advanceCh s).2
    (makeToken s TokenType.TOKEN_STRING, s)

/-- `scanToken` (scanner.c, lines 128-165), case by case as written:
whitespace, EOF, numbers, the single- and two-character punctuation,
strings - and nothing else: there is no identifier/keyword branch, so any
other character (including every letter) falls through to
`errorToken("Unexpected character.")`. -/
def scanToken (s₀ : ScannerM) : TokenM × ScannerM :=
  let s := skipWhiteSpace (s₀.source.length + 1) s₀
  let s := { s with start := s.current }
  if scanAtEnd s then (makeToken s TokenType.TOKEN_EOF, s)
  else
    let r := advanceCh s
    let c := r.1
    let s := r.2
    if isDigitCh c then
      let s := numberScan s
      (makeToken s TokenType.TOKEN_NUMBER, s)
    else if c = '(' then (makeToken s TokenType.TOKEN_LEFT_PAREN, s)
    else if c = ')' then (makeToken s TokenType.TOKEN_RIGHT_PAREN, s)
    else if c = '\x7b' then (makeToken s TokenType.TOKEN_LEFT_BRACE, s)
    else if c = '\x7d' then (makeToken s TokenType.TOKEN_RIGHT_BRACE, s)
    else if c = ';' then (makeToken s TokenType.TOKEN_SEMICOLON, s)
    else if c = ',' then (makeToken s TokenType.TOKEN_COMMA, s)
    else if c = '.' then (makeToken s TokenType.TOKEN_DOT, s)
    else if c = '-' then (makeToken s TokenType.TOKEN_MINUS, s)
    else if c = '+' then (makeToken s TokenType.TOKEN_PLUS, s)
    else if c = '/' then (makeToken s TokenType.TOKEN_SLASH, s)
    else if c = '*' then (makeToken s TokenType.TOKEN_STAR, s)
    else if c = '!' then
      let m := matchCh s '='
      (makeToken m.2 (if m.1 then TokenType.TOKEN_BANG_EQUAL else TokenType.TOKEN_BANG), m.2)
    else if c = '=' then
      let m := matchCh s '='
      (makeToken m.2 (if m.1 then TokenType.TOKEN_EQUAL_EQUAL else TokenType.TOKEN_EQUAL), m.2)
    else if c = '<' then
      let m := matchCh s '='
      (makeToken m.2 (if m.1 then TokenType.TOKEN_LESS_EQUAL else TokenType.TOKEN_LESS), m.2)
    else if c = '>' then
      let m := matchCh s '='
      (makeToken m.2 (if m.1 then TokenType.TOKEN_GREATER_EQUAL else TokenType.TOKEN_GREATER), m.2)
    else if c = '"' then stringScan s
    else (errorToken s "Unexpected character.".toList, s)

/-! ## The Pratt expression parser (compiler.c)

Opcode numbering is internal to chunk.h, which is not in src/; the
constants below fix an arbitrary consistent numbering - no claim depends
on the numeric values. -/

def OP_CONSTANT : Nat := 0
def OP_NIL : Nat := 1
def OP_TRUE : Nat := 2
def OP_FALSE : Nat := 3
def OP_POP : Nat := 4
def OP_GET_LOCAL : Nat := 5
def OP_SET_LOCAL : Nat := 6
def OP_GET_GLOBAL : Nat := 7
def OP_DEFINE_GLOBAL : Nat := 8
def OP_SET_GLOBAL : Nat := 9
def OP_GET_UPVALUE : Nat := 10
def OP_SET_UPVALUE : Nat := 11
def OP_GET_PROPERTY : Nat := 12
def OP_SET_PROPERTY : Nat := 13
def OP_EQUAL : Nat := 14
def OP_GREATER : Nat := 15
def OP_LESS : Nat := 16
def OP_ADD : Nat := 17
def OP_SUBTRACT : Nat := 18
def OP_MULTIPLY : Nat := 19
def OP_DIVIDE : Nat := 20
def OP_NOT : Nat := 21
def OP_NEGATE : Nat := 22
def OP_PRINT : Nat := 23
def OP_JUMP : Nat := 24
def OP_JUMP_IF_FALSE : Nat := 25
def OP_LOOP : Nat := 26
def OP_CALL : Nat := 27
def OP_INVOKE : Nat := 28
def OP_CLOSURE : Nat := 29
def OP_CLOSE_UPVALUE : Nat := 30
def OP_RETURN : Nat := 31
def OP_CLASS : Nat := 32

/-- The precedence ladder (compiler.c `Precedence`), compared as C enum
integers. -/
def PREC_NONE : Nat := 0
def PREC_ASSIGNMENT : Nat := 1
def PREC_OR : Nat := 2
def PREC_AND : Nat := 3
def PREC_EQUALITY : Nat := 4
def PREC_COMPARISON : Nat := 5
def PREC_TERM : Nat := 6
def PREC_FACTOR : Nat := 7
def PREC_UNARY : Nat := 8
def PREC_CALL : Nat := 9
def PREC_PRIMARY : Nat := 10

/-- Identifiers for the parse functions the rules table points at. -/
inductive ParseFnId where
  | fGrouping
  | fCall
  | fDot
  | fUnary
  | fBinary
  | fVariable
  | fString
  | fNumber
  | fAnd
  | fOr
  | fLiteral
  | fThis
deriving DecidableEq, Repr

/-- A parse rule (compiler.c `ParseRule`). -/
structure ParseRule where
  prefixFn : Option ParseFnId
  infixFn : Option ParseFnId
  precedence : Nat
deriving DecidableEq, Repr

/-- `rules` (compiler.c, lines 961-1002), entry by entry as written -
including `[TOKEN_AND] = {NULL, and_, PREC_NONE}` and
`[TOKEN_OR] = {NULL, or_, PREC_NONE}`. -/
def rules (t : TokenType) : ParseRule :=
  match t with
  | TokenType.TOKEN_LEFT_PAREN => ⟨some ParseFnId.fGrouping, some ParseFnId.fCall, PREC_CALL⟩
  | TokenType.TOKEN_RIGHT_PAREN => ⟨none, none, PREC_NONE⟩
  | TokenType.TOKEN_LEFT_BRACE => ⟨none, none, PREC_NONE⟩
  | TokenType.TOKEN_RIGHT_BRACE => ⟨none, none, PREC_NONE⟩
  | TokenType.TOKEN_COMMA => ⟨none, none, PREC_NONE⟩
  | TokenType.TOKEN_DOT => ⟨none, some ParseFnId.fDot, PREC_CALL⟩
  | TokenType.TOKEN_MINUS => ⟨some ParseFnId.fUnary, some ParseFnId.fBinary, PREC_TERM⟩
  | TokenType.TOKEN_PLUS => ⟨none, some ParseFnId.fBinary, PREC_TERM⟩
  | TokenType.TOKEN_SEMICOLON => ⟨none, none, PREC_NONE⟩
  | TokenType.TOKEN_SLASH => ⟨none, some ParseFnId.fBinary, PREC_FACTOR⟩
  | TokenType.TOKEN_STAR => ⟨none, some ParseFnId.fBinary, PREC_FACTOR⟩
  | TokenType.TOKEN_BANG => ⟨some ParseFnId.fUnary, none, PREC_NONE⟩
  | TokenType.TOKEN_BANG_EQUAL => ⟨none, some ParseFnId.fBinary, PREC_EQUALITY⟩
  | TokenType.TOKEN_EQUAL => ⟨none, none, PREC_NONE⟩
  | TokenType.TOKEN_EQUAL_EQUAL => ⟨none, some ParseFnId.fBinary, PREC_EQUALITY⟩
  | TokenType.TOKEN_GREATER => ⟨none, some ParseFnId.fBinary, PREC_COMPARISON⟩
  | TokenType.TOKEN_GREATER_EQUAL => ⟨none, some ParseFnId.fBinary, PREC_COMPARISON⟩
  | TokenType.TOKEN_LESS => ⟨none, some ParseFnId.fBinary, PREC_COMPARISON⟩
  | TokenType.TOKEN_LESS_EQUAL => ⟨none, some ParseFnId.fBinary, PREC_COMPARISON⟩
  | TokenType.TOKEN_IDENTIFIER => ⟨some ParseFnId.fVariable, none, PREC_NONE⟩
  | TokenType.TOKEN_STRING => ⟨some ParseFnId.fString, none, PREC_NONE⟩
  | TokenType.TOKEN_NUMBER => ⟨some ParseFnId.fNumber, none, PREC_NONE⟩
  | TokenType.TOKEN_AND => ⟨none, some ParseFnId.fAnd, PREC_NONE⟩
  | TokenType.TOKEN_CLASS => ⟨none, none, PREC_NONE⟩
  | TokenType.TOKEN_ELSE => ⟨none, none, PREC_NONE⟩
  | TokenType.TOKEN_FALSE => ⟨some ParseFnId.fLiteral, none, PREC_NONE⟩
  | TokenType.TOKEN_FOR => ⟨none, none, PREC_NONE⟩
  | TokenType.TOKEN_FUN => ⟨none, none, PREC_NONE⟩
  | TokenType.TOKEN_IF => ⟨none, none, PREC_NONE⟩
  | TokenType.TOKEN_NIL => ⟨some ParseFnId.fLiteral, none, PREC_NONE⟩
  | TokenType.TOKEN_OR => ⟨none, some ParseFnId.fOr, PREC_NONE⟩
  | TokenType.TOKEN_PRINT => ⟨none, none, PREC_NONE⟩
  | TokenType.TOKEN_RETURN => ⟨none, none, PREC_NONE⟩
  | TokenType.TOKEN_SUPER => ⟨none, none, PREC_NONE⟩
  | TokenType.TOKEN_THIS => ⟨some ParseFnId.fThis, none, PREC_NONE⟩
  | TokenType.TOKEN_TRUE => ⟨some ParseFnId.fLiteral, none, PREC_NONE⟩
  | TokenType.TOKEN_VAR => ⟨none, none, PREC_NONE⟩
  | TokenType.TOKEN_WHILE => ⟨none, none, PREC_NONE⟩
  | TokenType.TOKEN_ERROR => ⟨none, none, PREC_NONE⟩
  | TokenType.TOKEN_EOF => ⟨none, none, PREC_NONE⟩

/-- Constant-pool values the expression compiler creates: number literals
(their conversion by `strtod` is deferred - the lexeme is kept) and
strings (identifier names, string literals). -/
inductive CValue where
  | cNumber (lexeme : List Char)
  | cString (s : List Char)
deriving DecidableEq, Repr

/-- A local (compiler.c `Local`); depth -1 means declared but
uninitialized. -/
structure LocalM where
  name : List Char
  depth : Int
  isCaptured : Bool
deriving DecidableEq, Repr

instance : Inhabited LocalM := ⟨⟨[], 0, false⟩⟩

/-- A compile-time upvalue (compiler.c `Upvalue`). -/
structure CompUpvalue where
  index : Nat
  isLocal : Bool
deriving DecidableEq, Repr

instance : Inhabited CompUpvalue := ⟨⟨0, false⟩⟩

/-- One compiler frame (compiler.c `Compiler`): the `enclosing` chain is
the tail of the list holding these. The function being built is carried
as its chunk bytes, constant pool and upvalue list
(`funUpvalueCount = upvalues.length`). -/
structure CompFrame where
  locals : List LocalM
  upvalues : List CompUpvalue
  scopeDepth : Nat
  chunk : List Nat
  constants : List CValue
deriving DecidableEq, Repr

/-- Parser plus current compiler chain (compiler.c `Parser`, `current`,
`currentClass`): `rest` is the remaining scanner output, `errors` the
reported messages (the C prints them), `compilers` the chain with the
innermost first. -/
structure PState where
  current : TokenM
  previous : TokenM
  rest : List TokenM
  hadError : Bool
  panicMode : Bool
  errors : List (List Char)
  compilers : List CompFrame
  inClass : Bool
deriving DecidableEq, Repr

/-- `errorAt` (compiler.c): suppressed in panic mode; else sets panic
mode and `hadError` and reports. -/
def errorAtMsg (st : PState) (message : List Char) : PState :=
  if st.panicMode then st
  else { st with panicMode := true, hadError := true, errors := st.errors ++ [message] }

/-- The scanner as the parser sees it: past the end it keeps returning
EOF. -/
def nextTok : List TokenM → TokenM × List TokenM
  | [] => (⟨TokenType.TOKEN_EOF, [], 0⟩, [])
  | t :: ts => (t, ts)

/-- The error-skipping loop of `advance` (compiler.c). -/
def advanceLoop : Nat → PState → PState
  | 0, st => st
  | fuel + 1, st =>
    let r := nextTok st.rest
    let st := { st with current := r.1, rest := r.2 }
    if st.current.ttype ≠ TokenType.TOKEN_ERROR then st
    else advanceLoop fuel (errorAtMsg st st.current.lexeme)

/-- `advance` (compiler.c). -/
def advanceP (st : PState) : PState :=
  advanceLoop (st.rest.length + 1) { st with previous := st.current }

/-- `consume` (compiler.c). -/
def consumeP (st : PState) (t : TokenType) (message : List Char) : PState :=
  if st.current.ttype = t then advanceP st else errorAtMsg st message

/-- `check` (compiler.c). -/
def checkP (st : PState) (t : TokenType) : Bool := st.current.ttype = t

/-- `match` (compiler.c). -/
def matchP (st : PState) (t : TokenType) : Bool × PState :=
  if checkP st t then (true, advanceP st) else (false, st)

def withChunk (st : PState) (f : List Nat → List Nat) : PState :=
  match st.compilers with
  | [] => st
  | c :: cs => { st with compilers := { c with chunk := f c.chunk } :: cs }

def chunkOf (st : PState) : List Nat :=
  match st.compilers with
  | [] => []
  | c :: _ => c.chunk

/-- `emitByte` (compiler.c). -/
def emitByteP (st : PState) (b : Nat) : PState := withChunk st (fun code => code ++ [b])

/-- `emitBytes` (compiler.c). -/
def emitBytesP (st : PState) (b₁ b₂ : Nat) : PState := emitByteP (emitByteP st b₁) b₂

/-- `emitJump` (compiler.c): opcode plus a two-byte placeholder; returns
the offset of the operand. -/
def emitJumpP (st : PState) (instruction : Nat) : PState × Nat :=
  let st := emitByteP (emitByteP (emitByteP st instruction) 0xff) 0xff
  (st, (chunkOf st).length - 2)

/-- `patchJump` (compiler.c). -/
def patchJumpP (st : PState) (offset : Nat) : PState :=
  let jump := (chunkOf st).length - offset - 2
  let st := if jump > 65535 then errorAtMsg st "Too much code to jump over.".toList else st
  withChunk st (fun code =>
    (code.set offset ((jump >>> 8) &&& 0xff)).set (offset + 1) (jump &&& 0xff))

/-- `makeConstant` (compiler.c): `addConstant` appends to the pool and
returns the index; more than 256 entries is a compile error. -/
def makeConstantP (st : PState) (v : CValue) : PState × Nat :=
  match st.compilers with
  | [] => (st, 0)
  | c :: cs =>
    let constant := c.constants.length
    let st := { st with compilers := { c with constants := c.constants ++ [v] } :: cs }
    if constant > 255 then
      (errorAtMsg st "Too many constants in one chunk.".toList, 0)
    else (st, constant)

/-- `emitConstant` (compiler.c). -/
def emitConstantP (st : PState) (v : CValue) : PState :=
  let r := makeConstantP st v
  emitBytesP r.1 OP_CONSTANT r.2

/-- `identifierConstant` (compiler.c): the lexeme, interned, into the
constant pool. -/
def identifierConstant (st : PState) (name : TokenM) : PState × Nat :=
  makeConstantP st (CValue.cString name.lexeme)

/-- The backward walk of `resolveLocal` (compiler.c); the result's first
component reports the read-in-own-initializer error. -/
def resolveLocalGo (locals : List LocalM) (name : List Char) : Nat → Bool × Int
  | 0 => (false, -1)
  | i + 1 =>
    let l := locals.getD i default
    if l.name = name then
      (l.depth = -1, Int.ofNat i)
    else resolveLocalGo locals name i

/-- `resolveLocal` (compiler.c). -/
def resolveLocal (c : CompFrame) (name : List Char) : Bool × Int :=
  resolveLocalGo c.locals name c.locals.length

/-- `addUpvalue` (compiler.c): reuse a matching upvalue, else append one;
the Bool reports the too-many-upvalues error. -/
def addUpvalue (c : CompFrame) (index : Nat) (isLocal : Bool) : CompFrame × Nat × Bool :=
  match (List.range c.upvalues.length).find? (fun i =>
      (c.upvalues.getD i default).index = index ∧
      (c.upvalues.getD i default).isLocal = isLocal) with
  | some i => (c, i, false)
  | none =>
    if c.upvalues.length = 256 then (c, 0, true)
    else ({ c with upvalues := c.upvalues ++ [⟨index, isLocal⟩] }, c.upvalues.length, false)

def markCaptured (c : CompFrame) (i : Nat) : CompFrame :=
  { c with locals := c.locals.set i { c.locals.getD i default with isCaptured := true } }

/-- `resolveUpvalue` (compiler.c), over the compiler chain (head =
current, tail = enclosing chain). Returns the updated chain, the upvalue
index (or -1), and the error messages to report. -/
def resolveUpvalue : List CompFrame → List Char → List CompFrame × Int × List (List Char)
  | [], _ => ([], -1, [])
  | [c], _ => ([c], -1, [])
  | c :: enc :: rest, name =>
    let rl := resolveLocal enc name
    if rl.2 ≠ -1 then
      let enc := markCaptured enc rl.2.toNat
      let ra := addUpvalue c rl.2.toNat true
      (ra.1 :: enc :: rest,
        Int.ofNat ra.2.1,
        (if rl.1 then ["Can't read local variable in its own initializer.".toList] else []) ++
          (if ra.2.2 then ["Too many closure variables in function.".toList] else []))
    else
      let rr := resolveUpvalue (enc :: rest) name
      match rr.1 with
      | enc' :: rest' =>
        if rr.2.1 ≠ -1 then
          let ra := addUpvalue c rr.2.1.toNat false
          (ra.1 :: enc' :: rest', Int.ofNat ra.2.1,
            rr.2.2 ++ (if ra.2.2 then ["Too many closure variables in function.".toList] else []))
        else (c :: enc' :: rest', -1, rr.2.2)
      | [] => ([c], -1, rr.2.2)

mutual

/-- `parsePrecedence` (compiler.c, lines 1006-1036): consume the prefix
rule, then fold infix rules while the next token's rule precedence is at
least the requested one; finally the invalid-assignment-target check. -/
def parsePrecedence : Nat → Nat → PState → PState
  | 0, _, st => st
  | fuel + 1, precedence, st =>
    let st := advanceP st
    match (rules st.previous.ttype).prefixFn with
    | none => errorAtMsg st "Expect expression.".toList
    | some pfn =>
      let canAssign := precedence ≤ PREC_ASSIGNMENT
      let st := runPrefix fuel pfn canAssign st
      let st := infixLoop fuel precedence canAssign st
      if canAssign then
        let m := matchP st TokenType.TOKEN_EQUAL
        if m.1 then errorAtMsg m.2 "Invalid assignment target.".toList else m.2
      else st

/-- The `while (precedence <= getRule(parser.current.type)->precedence)`
loop of `parsePrecedence`. -/
def infixLoop : Nat → Nat → Bool → PState → PState
  | 0, _, _, st => st
  | fuel + 1, precedence, canAssign, st =>
    if precedence ≤ (rules st.current.ttype).precedence then
      let st := advanceP st
      match (rules st.previous.ttype).infixFn with
      | some ifn => infixLoop fuel precedence canAssign (runInfix fuel ifn canAssign st)
      | none => st
    else st

def runPrefix : Nat → ParseFnId → Bool → PState → PState
  | 0, _, _, st => st
  | fuel + 1, fn, canAssign, st =>
    match fn with
    | ParseFnId.fGrouping => groupingP fuel canAssign st
    | ParseFnId.fUnary => unaryP fuel canAssign st
    | ParseFnId.fVariable => variableP fuel canAssign st
    | ParseFnId.fString => stringLitP canAssign st
    | ParseFnId.fNumber => numberLitP canAssign st
    | ParseFnId.fLiteral => literalP canAssign st
    | ParseFnId.fThis => thisP fuel canAssign st
    | _ => st

def runInfix : Nat → ParseFnId → Bool → PState → PState
  | 0, _, _, st => st
  | fuel + 1, fn, canAssign, st =>
    match fn with
    | ParseFnId.fBinary => binaryP fuel canAssign st
    | ParseFnId.fCall => callRuleP fuel canAssign st
    | ParseFnId.fDot => dotP fuel canAssign st
    | ParseFnId.fAnd => andP fuel canAssign st
    | ParseFnId.fOr => orP fuel canAssign st
    | _ => st

/-- `expression` (compiler.c). -/
def expressionF : Nat → PState → PState
  | 0, st => st
  | fuel + 1, st => parsePrecedence fuel PREC_ASSIGNMENT st

/-- `grouping` (compiler.c). -/
def groupingP : Nat → Bool → PState → PState
  | 0, _, st => st
  | fuel + 1, _, st =>
    consumeP (expressionF fuel st) TokenType.TOKEN_RIGHT_PAREN
      "Expect ')' after expression.".toList

/-- `number` (compiler.c). -/
def numberLitP (_canAssign : Bool) (st : PState) : PState :=
  emitConstantP st (CValue.cNumber st.previous.lexeme)

/-- `string` (compiler.c): trim the quotes. -/
def stringLitP (_canAssign : Bool) (st : PState) : PState :=
  emitConstantP st (CValue.cString (st.previous.lexeme.drop 1).dropLast)

/-- `literal` (compiler.c). -/
def literalP (_canAssign : Bool) (st : PState) : PState :=
  match st.previous.ttype with
  | TokenType.TOKEN_FALSE => emitByteP st OP_FALSE
  | TokenType.TOKEN_NIL => emitByteP st OP_NIL
  | TokenType.TOKEN_TRUE => emitByteP st OP_TRUE
  | _ => st

/-- `unary` (compiler.c). -/
def unaryP : Nat → Bool → PState → PState
  | 0, _, st => st
  | fuel + 1, _, st =>
    let operatorType := st.previous.ttype
    let st := parsePrecedence fuel PREC_UNARY st
    match operatorType with
    | TokenType.TOKEN_BANG => emitByteP st OP_NOT
    | TokenType.TOKEN_MINUS => emitByteP st OP_NEGATE
    | _ => st

/-- `binary` (compiler.c). -/
def binaryP : Nat → Bool → PState → PState
  | 0, _, st => st
  | fuel + 1, _, st =>
    let operatorType := st.previous.ttype
    let st := parsePrecedence fuel ((rules operatorType).precedence + 1) st
    match operatorType with
    | TokenType.TOKEN_BANG_EQUAL => emitBytesP st OP_EQUAL OP_NOT
    | TokenType.TOKEN_EQUAL_EQUAL => emitByteP st OP_EQUAL
    | TokenType.TOKEN_GREATER => emitByteP st OP_GREATER
    | TokenType.TOKEN_GREATER_EQUAL => emitBytesP st OP_LESS OP_NOT
    | TokenType.TOKEN_LESS => emitByteP st OP_LESS
    | TokenType.TOKEN_LESS_EQUAL => emitBytesP st OP_GREATER OP_NOT
    | TokenType.TOKEN_PLUS => emitByteP st OP_ADD
    | TokenType.TOKEN_MINUS => emitByteP st OP_SUBTRACT
    | TokenType.TOKEN_STAR => emitByteP st OP_MULTIPLY
    | TokenType.TOKEN_SLASH => emitByteP st OP_DIVIDE
    | _ => st

/-- `and_` (compiler.c). -/
def andP : Nat → Bool → PState → PState
  | 0, _, st => st
  | fuel + 1, _, st =>
    let r := emitJumpP st OP_JUMP_IF_FALSE
    let st := emitByteP r.1 OP_POP
    let st := parsePrecedence fuel PREC_AND st
    patchJumpP st r.2

/-- `or_` (compiler.c). -/
def orP : Nat → Bool → PState → PState
  | 0, _, st => st
  | fuel + 1, _, st =>
    let r₁ := emitJumpP st OP_JUMP_IF_FALSE
    let r₂ := emitJumpP r₁.1 OP_JUMP
    let st := patchJumpP r₂.1 r₁.2
    let st := emitByteP st OP_POP
    let st := parsePrecedence fuel PREC_OR st
    patchJumpP st r₂.2

/-- The do-while body of `argumentList` (compiler.c). -/
def argLoop : Nat → PState → Nat → PState × Nat
  | 0, st, n => (st, n)
  | fuel + 1, st, n =>
    let st := expressionF fuel st
    let st := if n = 255 then
        errorAtMsg st "Can't have more than 255 arguments.".toList
      else st
    let n := n + 1
    let m := matchP st TokenType.TOKEN_COMMA
    if m.1 then argLoop fuel m.2 n else (m.2, n)

/-- `argumentList` (compiler.c). -/
def argumentList : Nat → PState → PState × Nat
  | 0, st => (st, 0)
  | fuel + 1, st =>
    let r := if checkP st TokenType.TOKEN_RIGHT_PAREN then (st, 0) else argLoop fuel st 0
    (consumeP r.1 TokenType.TOKEN_RIGHT_PAREN "Expect ')' after arguments.".toList, r.2)

/-- `call` (compiler.c). -/
def callRuleP : Nat → Bool → PState → PState
  | 0, _, st => st
  | fuel + 1, _, st =>
    let r := argumentList fuel st
    emitBytesP r.1 OP_CALL r.2

/-- `dot` (compiler.c). -/
def dotP : Nat → Bool → PState → PState
  | 0, _, st => st
  | fuel + 1, canAssign, st =>
    let st := consumeP st TokenType.TOKEN_IDENTIFIER "Expect property name after '.'.".toList
    let rn := identifierConstant st st.previous
    let st := rn.1
    let m := matchP st TokenType.TOKEN_EQUAL
    if canAssign ∧ m.1 then
      emitBytesP (expressionF fuel m.2) OP_SET_PROPERTY rn.2
    else
      let m₂ := matchP st TokenType.TOKEN_LEFT_PAREN
      if m₂.1 then
        let ra := argumentList fuel m₂.2
        emitByteP (emitBytesP ra.1 OP_INVOKE rn.2) ra.2
      else emitBytesP st OP_GET_PROPERTY rn.2

/-- `namedVariable` (compiler.c). -/
def namedVariable : Nat → TokenM → Bool → PState → PState
  | 0, _, _, st => st
  | fuel + 1, name, canAssign, st =>
    match st.compilers with
    | [] => st
    | c :: _ =>
      let rl := resolveLocal c name.lexeme
      let st := if rl.1 ∧ rl.2 ≠ -1 then
          errorAtMsg st "Can't read local variable in its own initializer.".toList
        else st
      let pick : PState × Nat × Nat × Nat :=
        if rl.2 ≠ -1 then (st, OP_GET_LOCAL, OP_SET_LOCAL, rl.2.toNat)
        else
          let ru := resolveUpvalue st.compilers name.lexeme
          let st := { st with compilers := ru.1 }
          let st := ru.2.2.foldl errorAtMsg st
          if ru.2.1 ≠ -1 then (st, OP_GET_UPVALUE, OP_SET_UPVALUE, ru.2.1.toNat)
          else
            let ri := identifierConstant st name
            (ri.1, OP_GET_GLOBAL, OP_SET_GLOBAL, ri.2)
      let st := pick.1
      let m := matchP st TokenType.TOKEN_EQUAL
      if canAssign ∧ m.1 then
        emitBytesP (expressionF fuel m.2) pick.2.2.1 pick.2.2.2
      else emitBytesP st pick.2.1 pick.2.2.2

/-- `variable` (compiler.c). -/
def variableP : Nat → Bool → PState → PState
  | 0, _, st => st
  | fuel + 1, canAssign, st => namedVariable fuel st.previous canAssign st

/-- `this_` (compiler.c). -/
def thisP : Nat → Bool → PState → PState
  | 0, _, st => st
  | fuel + 1, _, st =>
    if st.inClass = false then
      errorAtMsg st "Can't use 'this' outside of a class.".toList
    else variableP fuel false st

end

/-- `expressionStatement` (compiler.c). -/
def expressionStatement : Nat → PState → PState
  | 0, st => st
  | fuel + 1, st =>
    let st := expressionF fuel st
    let st := consumeP st TokenType.TOKEN_SEMICOLON "Expect ';' after expression.".toList
    emitByteP st OP_POP

/-- The state `compile` (compiler.c) sets up for a top-level script:
one compiler frame with local slot 0 reserved under the empty name, then
one `advance`. -/
def initParse (tokens : List TokenM) : PState :=
  advanceP
    ⟨⟨TokenType.TOKEN_EOF, [], 0⟩, ⟨TokenType.TOKEN_EOF, [], 0⟩, tokens,
      false, false, [], [⟨[⟨[], 0, false⟩], [], 0, [], []⟩], false⟩

def tokC3 (t : TokenType) (s : List Char) : TokenM := ⟨t, s, 1⟩

/-- The scanner output of `a and b;`. -/
def c3Tokens : List TokenM :=
  [tokC3 TokenType.TOKEN_IDENTIFIER "a".toList,
   tokC3 TokenType.TOKEN_AND "and".toList,
   tokC3 TokenType.TOKEN_IDENTIFIER "b".toList,
   tokC3 TokenType.TOKEN_SEMICOLON ";".toList,
   tokC3 TokenType.TOKEN_EOF []]

/-! ### Elementary facts about buckets and probing -/

lemma isEmptyBucket_iff {e : Entry} :
    e.isEmptyBucket = true ↔ e.key = none ∧ e.value = Value.vNil := by
  simp [Entry.isEmptyBucket]

lemma isEmptyBucket_false_iff {e : Entry} :
    e.isEmptyBucket = false ↔ ¬(e.key = none ∧ e.value = Value.vNil) := by
  rw [← isEmptyBucket_iff]
  simp

lemma isEmptyBucket_false_of_key_some {e : Entry} {k : ObjString}
    (h : e.key = some k) : e.isEmptyBucket = false := by
  rw [isEmptyBucket_false_iff]
  rintro ⟨h', -⟩
  rw [h] at h'
  exact Option.noConfusion h'

lemma bucketAt_eq_getElem {entries : List Entry} {i : Nat} (h : i < entries.length) :
    bucketAt entries i = entries[i] := by
  simp [bucketAt, List.getD_eq_getElem?_getD, List.getElem?_eq_getElem h]

lemma bucketAt_eq_default {entries : List Entry} {i : Nat} (h : entries.length ≤ i) :
    bucketAt entries i = default := by
  simp [bucketAt, List.getD_eq_getElem?_getD, List.getElem?_eq_none h]

lemma bucketAt_mem {entries : List Entry} {i : Nat} (h : i < entries.length) :
    bucketAt entries i ∈ entries := by
  rw [bucketAt_eq_getElem h]
  exact List.getElem_mem h

lemma bucketAt_set_self {entries : List Entry} {j : Nat} (h : j < entries.length)
    (a : Entry) : bucketAt (entries.set j a) j = a := by
  simp [bucketAt, List.getD_eq_getElem?_getD, List.getElem?_set_self h]

lemma bucketAt_set_ne {entries : List Entry} {i j : Nat} (h : i ≠ j) (a : Entry) :
    bucketAt (entries.set j a) i = bucketAt entries i := by
  simp [bucketAt, List.getD_eq_getElem?_getD, List.getElem?_set_ne (Ne.symm h)]

lemma probe_lt {cap : Nat} (hcap : 0 < cap) (h s : Nat) : probe cap h s < cap :=
  Nat.mod_lt _ hcap

lemma probe_zero {cap h : Nat} (hh : h < cap) : probe cap h 0 = h := by
  simp [probe, Nat.mod_eq_of_lt hh]

lemma probe_shift (cap h s : Nat) : probe cap ((h + 1) % cap) s = probe cap h (s + 1) := by
  unfold probe
  rw [Nat.mod_add_mod]
  congr 1
  omega

lemma probe_inj {cap h s₁ s₂ : Nat} (h₁ : s₁ < cap) (h₂ : s₂ < cap)
    (he : probe cap h s₁ = probe cap h s₂) : s₁ = s₂ := by
  have hmod : s₁ % cap = s₂ % cap :=
    Nat.ModEq.add_left_cancel' h (he : (h + s₁) % cap = (h + s₂) % cap)
  rwa [Nat.mod_eq_of_lt h₁, Nat.mod_eq_of_lt h₂] at hmod

lemma probe_surj {cap h j : Nat} (hh : h < cap) (hj : j < cap) :
    ∃ s, s < cap ∧ probe cap h s = j := by
  refine ⟨(cap + j - h) % cap, Nat.mod_lt _ (by omega), ?_⟩
  unfold probe
  rw [Nat.add_mod_mod]
  have h1 : h + (cap + j - h) = cap + j := by omega
  rw [h1, Nat.add_mod_left, Nat.mod_eq_of_lt hj]

lemma bucketAt_cons_zero (x : Entry) (xs : List Entry) : bucketAt (x :: xs) 0 = x := by
  simp [bucketAt]

lemma bucketAt_cons_succ (x : Entry) (xs : List Entry) (n : Nat) :
    bucketAt (x :: xs) (n + 1) = bucketAt xs n := by
  simp [bucketAt, List.getD_eq_getElem?_getD]

lemma countP_set_le (p : Entry → Bool) (l : List Entry) (j : Nat) (a : Entry) :
    (l.set j a).countP p ≤ l.countP p + 1 := by
  induction l generalizing j with
  | nil => simp
  | cons x xs ih =>
    cases j with
    | zero =>
      simp only [List.set]
      rw [List.countP_cons, List.countP_cons]
      split <;> split <;> omega
    | succ n =>
      simp only [List.set]
      rw [List.countP_cons, List.countP_cons]
      have := ih n
      split <;> omega

lemma countP_set_eq_of_true (p : Entry → Bool) {l : List Entry} {j : Nat} {a : Entry}
    (hj : j < l.length) (h1 : p (bucketAt l j) = true) (h2 : p a = true) :
    (l.set j a).countP p = l.countP p := by
  induction l generalizing j with
  | nil => simp at hj
  | cons x xs ih =>
    cases j with
    | zero =>
      rw [bucketAt_cons_zero] at h1
      simp only [List.set]
      rw [List.countP_cons, List.countP_cons, h1, h2]
    | succ n =>
      rw [bucketAt_cons_succ] at h1
      simp only [List.set]
      rw [List.countP_cons, List.countP_cons,
        ih (by simpa using Nat.lt_of_succ_lt_succ hj) h1]

/-! ### The probing loop, characterised -/

/-- If the first `s` probe steps are passable and step `s` hits a bucket
keyed by `key`'s identity, `findEntryAux` returns that bucket. -/
lemma findEntryAux_found {entries : List Entry} {cap : Nat} {key : ObjString} :
    ∀ (s fuel start : Nat) (tomb : Option Nat), s < fuel → start < cap →
    (∀ s', s' < s → passableAt entries key (probe cap start s')) →
    (∃ k, (bucketAt entries (probe cap start s)).key = some k ∧ k.sid = key.sid) →
    findEntryAux entries cap key fuel start tomb = some (probe cap start s) := by
  intro s
  induction s with
  | zero =>
    intro fuel start tomb hfuel hstart _ hmatch
    obtain ⟨fuel, rfl⟩ : ∃ f, fuel = f + 1 := ⟨fuel - 1, by omega⟩
    obtain ⟨k, hk, hsid⟩ := hmatch
    rw [probe_zero hstart] at hk ⊢
    simp [findEntryAux, hk, hsid]
  | succ s ih =>
    intro fuel start tomb hfuel hstart hpass hmatch
    obtain ⟨fuel, rfl⟩ : ∃ f, fuel = f + 1 := ⟨fuel - 1, by omega⟩
    obtain ⟨h0k, h0e⟩ : passableAt entries key start := by
      have h0 := hpass 0 (Nat.succ_pos s)
      rwa [probe_zero hstart] at h0
    have hstart' : (start + 1) % cap < cap := Nat.mod_lt _ (by omega)
    have hpass' : ∀ s', s' < s → passableAt entries key (probe cap ((start + 1) % cap) s') := by
      intro s' hs'
      rw [probe_shift]
      exact hpass (s' + 1) (by omega)
    have hmatch' : ∃ k, (bucketAt entries (probe cap ((start + 1) % cap) s)).key = some k ∧
        k.sid = key.sid := by
      rw [probe_shift]
      exact hmatch
    rcases hkey : (bucketAt entries start).key with _ | k
    · -- tombstone at the start bucket (it cannot be empty: passable)
      have hne : (bucketAt entries start).value ≠ Value.vNil := by
        intro hv
        rw [isEmptyBucket_false_iff] at h0e
        exact h0e ⟨hkey, hv⟩
      simp only [findEntryAux, hkey, if_neg hne]
      rw [ih fuel ((start + 1) % cap) _ (by omega) hstart' hpass' hmatch', probe_shift]
    · -- occupied, non-matching bucket
      have hne : k.sid ≠ key.sid := h0k k hkey
      simp only [findEntryAux, hkey, if_neg hne]
      rw [ih fuel ((start + 1) % cap) tomb (by omega) hstart' hpass' hmatch', probe_shift]

/-- Once a tombstone has been recorded, a passable prefix ending at an
empty bucket makes `findEntryAux` return the recorded tombstone. -/
lemma findEntryAux_tomb {entries : List Entry} {cap : Nat} {key : ObjString} :
    ∀ (s fuel start jt : Nat), s < fuel → start < cap →
    (∀ s', s' < s → passableAt entries key (probe cap start s')) →
    (bucketAt entries (probe cap start s)).isEmptyBucket = true →
    findEntryAux entries cap key fuel start (some jt) = some jt := by
  intro s
  induction s with
  | zero =>
    intro fuel start jt hfuel hstart _ hempty
    obtain ⟨fuel, rfl⟩ : ∃ f, fuel = f + 1 := ⟨fuel - 1, by omega⟩
    rw [probe_zero hstart, isEmptyBucket_iff] at hempty
    simp only [findEntryAux, hempty.1, if_pos hempty.2]
    rfl
  | succ s ih =>
    intro fuel start jt hfuel hstart hpass hempty
    obtain ⟨fuel, rfl⟩ : ∃ f, fuel = f + 1 := ⟨fuel - 1, by omega⟩
    obtain ⟨h0k, h0e⟩ : passableAt entries key start := by
      have h0 := hpass 0 (Nat.succ_pos s)
      rwa [probe_zero hstart] at h0
    have hstart' : (start + 1) % cap < cap := Nat.mod_lt _ (by omega)
    have hpass' : ∀ s', s' < s → passableAt entries key (probe cap ((start + 1) % cap) s') := by
      intro s' hs'
      rw [probe_shift]
      exact hpass (s' + 1) (by omega)
    have hempty' : (bucketAt entries (probe cap ((start + 1) % cap) s)).isEmptyBucket = true := by
      rw [probe_shift]
      exact hempty
    rcases hkey : (bucketAt entries start).key with _ | k
    · have hne : (bucketAt entries start).value ≠ Value.vNil := by
        intro hv
        rw [isEmptyBucket_false_iff] at h0e
        exact h0e ⟨hkey, hv⟩
      simp only [findEntryAux, hkey, if_neg hne]
      exact ih fuel ((start + 1) % cap) jt (by omega) hstart' hpass' hempty'
    · have hne : k.sid ≠ key.sid := h0k k hkey
      simp only [findEntryAux, hkey, if_neg hne]
      exact ih fuel ((start + 1) % cap) jt (by omega) hstart' hpass' hempty'

/-- With no tombstone recorded yet, a passable prefix ending at an empty
bucket makes `findEntryAux` return a keyless bucket `j` on the probe path
whose prefix consists of occupied buckets only. -/
lemma findEntryAux_insertSlot {entries : List Entry} {cap : Nat} {key : ObjString} :
    ∀ (s fuel start : Nat), s < fuel → start < cap →
    (∀ s', s' < s → passableAt entries key (probe cap start s')) →
    (bucketAt entries (probe cap start s)).isEmptyBucket = true →
    ∃ j s₁, findEntryAux entries cap key fuel start none = some j ∧
      s₁ ≤ s ∧ probe cap start s₁ = j ∧ (bucketAt entries j).key = none ∧
      ∀ s', s' < s₁ → ∃ k', (bucketAt entries (probe cap start s')).key = some k' := by
  intro s
  induction s with
  | zero =>
    intro fuel start hfuel hstart _ hempty
    obtain ⟨fuel, rfl⟩ : ∃ f, fuel = f + 1 := ⟨fuel - 1, by omega⟩
    rw [probe_zero hstart, isEmptyBucket_iff] at hempty
    refine ⟨start, 0, ?_, le_refl 0, probe_zero hstart, hempty.1, by omega⟩
    simp only [findEntryAux, hempty.1, if_pos hempty.2]
    rfl
  | succ s ih =>
    intro fuel start hfuel hstart hpass hempty
    obtain ⟨fuel, rfl⟩ : ∃ f, fuel = f + 1 := ⟨fuel - 1, by omega⟩
    obtain ⟨h0k, h0e⟩ : passableAt entries key start := by
      have h0 := hpass 0 (Nat.succ_pos s)
      rwa [probe_zero hstart] at h0
    have hstart' : (start + 1) % cap < cap := Nat.mod_lt _ (by omega)
    have hpass' : ∀ s', s' < s → passableAt entries key (probe cap ((start + 1) % cap) s') := by
      intro s' hs'
      rw [probe_shift]
      exact hpass (s' + 1) (by omega)
    have hempty' : (bucketAt entries (probe cap ((start + 1) % cap) s)).isEmptyBucket = true := by
      rw [probe_shift]
      exact hempty
    rcases hkey : (bucketAt entries start).key with _ | k
    · -- tombstone at the start bucket: it becomes the recorded tombstone
      have hne : (bucketAt entries start).value ≠ Value.vNil := by
        intro hv
        rw [isEmptyBucket_false_iff] at h0e
        exact h0e ⟨hkey, hv⟩
      refine ⟨start, 0, ?_, by omega, probe_zero hstart, hkey, by omega⟩
      simp only [findEntryAux, hkey, if_neg hne]
      exact findEntryAux_tomb s fuel _ start (by omega) hstart' hpass' hempty'
    · -- occupied bucket, keep walking
      have hne : k.sid ≠ key.sid := h0k k hkey
      obtain ⟨j, s₁, hres, hs₁, hprobe, hjkey, hpref⟩ :=
        ih fuel ((start + 1) % cap) (by omega) hstart' hpass' hempty'
      refine ⟨j, s₁ + 1, ?_, by omega, by rw [← probe_shift]; exact hprobe, hjkey, ?_⟩
      · simp only [findEntryAux, hkey, if_neg hne]
        exact hres
      · intro s' hs'
        cases s' with
        | zero =>
          rw [probe_zero hstart]
          exact ⟨k, hkey⟩
        | succ s'' =>
          rw [← probe_shift]
          exact hpref s'' (by omega)

/-- Whatever bucket `findEntryAux` returns, it is within the capacity and
either keyless or keyed by `key`'s identity - provided the recorded
tombstone already is a keyless in-range bucket. -/
lemma findEntryAux_some_inv {entries : List Entry} {cap : Nat} {key : ObjString} :
    ∀ (fuel start : Nat) (tomb : Option Nat) (j : Nat), start < cap →
    (∀ jt, tomb = some jt → jt < cap ∧ (bucketAt entries jt).key = none) →
    findEntryAux entries cap key fuel start tomb = some j →
    j < cap ∧ ((bucketAt entries j).key = none ∨
      ∃ k, (bucketAt entries j).key = some k ∧ k.sid = key.sid) := by
  intro fuel
  induction fuel with
  | zero =>
    intro start tomb j _ _ hres
    simp [findEntryAux] at hres
  | succ fuel ih =>
    intro start tomb j hstart htomb hres
    rcases hkey : (bucketAt entries start).key with _ | k
    · by_cases hv : (bucketAt entries start).value = Value.vNil
      · simp only [findEntryAux, hkey, if_pos hv] at hres
        rcases tomb with _ | jt
        · simp only [Option.getD_none, Option.some_inj] at hres
          subst hres
          exact ⟨hstart, Or.inl hkey⟩
        · obtain ⟨hlt, hnone⟩ := htomb jt rfl
          simp only [Option.getD_some, Option.some_inj] at hres
          subst hres
          exact ⟨hlt, Or.inl hnone⟩
      · simp only [findEntryAux, hkey, if_neg hv] at hres
        refine ih ((start + 1) % cap) _ j (Nat.mod_lt _ (by omega)) ?_ hres
        intro jt hjt
        rcases tomb with _ | jt₀
        · simp only [Option.getD_none, Option.some_inj] at hjt
          subst hjt
          exact ⟨hstart, hkey⟩
        · simp only [Option.getD_some, Option.some_inj] at hjt
          subst hjt
          exact htomb jt₀ rfl
    · by_cases hsid : k.sid = key.sid
      · simp only [findEntryAux, hkey, if_pos hsid, Option.some_inj] at hres
        subst hres
        exact ⟨hstart, Or.inr ⟨k, hkey, hsid⟩⟩
      · simp only [findEntryAux, hkey, if_neg hsid] at hres
        exact ih ((start + 1) % cap) tomb j (Nat.mod_lt _ (by omega)) htomb hres

/-! ### Consequences of well-formedness -/

lemma entriesWF_uniq {entries : List Entry} {cap : Nat} (hwf : EntriesWF entries cap)
    {i j : Nat} {k k' : ObjString} (hi : i < cap) (hj : j < cap)
    (hki : (bucketAt entries i).key = some k) (hkj : (bucketAt entries j).key = some k')
    (hsid : k.sid = k'.sid) : i = j := by
  by_contra hne
  rcases hwf.1 i hi j hj hne with h | h
  · rw [hki, hkj] at h
    simp [hsid] at h
  · rw [hki] at h
    exact Option.noConfusion h

lemma entriesWF_path {entries : List Entry} {cap : Nat} (hwf : EntriesWF entries cap)
    {i : Nat} {k : ObjString} (hi : i < cap) (hki : (bucketAt entries i).key = some k) :
    ∃ s, s < cap ∧ probe cap (k.hash % cap) s = i ∧
      ∀ s', s' < s → (bucketAt entries (probe cap (k.hash % cap) s')).isEmptyBucket = false := by
  have h := hwf.2 i hi (by rw [hki]; exact fun hc => Option.noConfusion hc)
  have hh : slotHash entries i = k.hash := by simp [slotHash, hki]
  rwa [hh] at h

lemma entriesAbsent_key_ne {entries : List Entry} {q : ObjString}
    (habs : EntriesAbsent entries q) {i : Nat} {k : ObjString}
    (hk : (bucketAt entries i).key = some k) : k.sid ≠ q.sid := by
  intro hsid
  by_cases hi : i < entries.length
  · have h := habs i hi
    rw [hk] at h
    simp [hsid] at h
  · rw [bucketAt_eq_default (by omega)] at hk
    simp at hk

lemma findEntry_found {t : Table} (hwf : TableWF t) {i : Nat} {key : ObjString}
    (hi : i < t.capacity) (hk : (bucketAt t.entries i).key = some key) :
    findEntry t.entries t.capacity key = some i := by
  obtain ⟨hlen, hcnt, hload, hewf⟩ := hwf
  have hcap : 0 < t.capacity := by omega
  obtain ⟨s, hs, hps, hpref⟩ := entriesWF_path hewf hi hk
  have hstart : key.hash % t.capacity < t.capacity := Nat.mod_lt _ hcap
  have hres := findEntryAux_found s t.capacity (key.hash % t.capacity) none hs hstart
    (fun s' hs' => ⟨fun k' hk' hsid => by
        have := entriesWF_uniq hewf (probe_lt hcap _ _) hi hk' hk hsid
        rw [← hps] at this
        exact absurd (probe_inj (by omega) hs this) (by omega),
      hpref s' hs'⟩)
    ⟨key, by rw [hps]; exact hk, rfl⟩
  rw [hps] at hres
  exact hres

lemma exists_empty_bucket {t : Table} (hwf : TableWF t) (hcap : 0 < t.capacity) :
    ∃ j, j < t.capacity ∧ (bucketAt t.entries j).isEmptyBucket = true := by
  obtain ⟨hlen, hcnt, hload, hewf⟩ := hwf
  by_contra hcon
  push_neg at hcon
  have hall : ∀ e ∈ t.entries, (!e.isEmptyBucket) = true := by
    intro e he
    obtain ⟨n, hn, rfl⟩ := List.mem_iff_getElem.mp he
    have h := hcon n (by omega)
    rw [← bucketAt_eq_getElem hn]
    simp only [Bool.not_eq_true] at h ⊢
    rw [bucketAt_eq_getElem hn] at h ⊢
    simp [h]
  have := List.countP_eq_length.mpr hall
  omega

lemma findEntry_insert_spec {t : Table} (hwf : TableWF t) {key : ObjString}
    (habs : EntriesAbsent t.entries key) (hcap : 0 < t.capacity) :
    ∃ j s₁, findEntry t.entries t.capacity key = some j ∧ j < t.capacity ∧
      (bucketAt t.entries j).key = none ∧ s₁ < t.capacity ∧
      probe t.capacity (key.hash % t.capacity) s₁ = j ∧
      ∀ s', s' < s₁ →
        ∃ k', (bucketAt t.entries (probe t.capacity (key.hash % t.capacity) s')).key = some k' := by
  obtain ⟨je, hje, hempty⟩ := exists_empty_bucket hwf hcap
  have hstart : key.hash % t.capacity < t.capacity := Nat.mod_lt _ hcap
  obtain ⟨se, hse, hpse⟩ := probe_surj hstart hje
  have hex : ∃ s, (bucketAt t.entries (probe t.capacity (key.hash % t.capacity) s)).isEmptyBucket
      = true := ⟨se, by rw [hpse]; exact hempty⟩
  classical
  let sstar := Nat.find hex
  have hsstar : sstar ≤ se := Nat.find_min' hex (by rw [hpse]; exact hempty)
  have hPsstar := Nat.find_spec hex
  have hpass : ∀ s', s' < sstar →
      passableAt t.entries key (probe t.capacity (key.hash % t.capacity) s') := by
    intro s' hs'
    refine ⟨fun k' hk' => entriesAbsent_key_ne habs hk', ?_⟩
    have := Nat.find_min hex hs'
    simpa using this
  obtain ⟨j, s₁, hres, hs₁, hprobe, hjkey, hpref⟩ :=
    findEntryAux_insertSlot sstar t.capacity (key.hash % t.capacity) (by omega) hstart
      hpass hPsstar
  exact ⟨j, s₁, hres, by rw [← hprobe]; exact probe_lt hcap _ _, hjkey, by omega, hprobe, hpref⟩

lemma tableGet_present {t : Table} (hwf : TableWF t) {i : Nat} {key : ObjString}
    (hi : i < t.capacity) (hk : (bucketAt t.entries i).key = some key) :
    tableGet t key = some (bucketAt t.entries i).value := by
  have hcount : ¬ t.count = 0 := by
    obtain ⟨hlen, hcnt, hload, hewf⟩ := hwf
    intro h0
    have hmem : bucketAt t.entries i ∈ t.entries := bucketAt_mem (by omega)
    have hz : t.entries.countP (fun e => !e.isEmptyBucket) = 0 := by omega
    rw [List.countP_eq_zero] at hz
    have := hz _ hmem
    rw [isEmptyBucket_false_of_key_some hk] at this
    simp at this
  have hfind := findEntry_found hwf hi hk
  simp [tableGet, hcount, hfind, hk]

lemma tableGet_absent {t : Table} {key : ObjString}
    (habs : EntriesAbsent t.entries key) : tableGet t key = none := by
  by_cases hc : t.count = 0
  · simp [tableGet, hc]
  · rcases Nat.eq_zero_or_pos t.capacity with hcap | hcap
    · have hfe : findEntry t.entries t.capacity key = none := by
        simp [findEntry, hcap, findEntryAux]
      simp [tableGet, hc, hfe]
    · cases hres : findEntry t.entries t.capacity key with
      | none => simp [tableGet, hc, hres]
      | some j =>
        rw [findEntry] at hres
        obtain ⟨hj, hkn | ⟨k, hk, hsid⟩⟩ :=
          findEntryAux_some_inv t.capacity _ none j (Nat.mod_lt _ hcap) (by simp) hres
        · rw [← findEntry] at hres
          simp [tableGet, hc, hres, hkn]
        · exact absurd hsid (entriesAbsent_key_ne habs hk)

/-! ### Preservation of well-formedness under bucket writes -/

lemma tombstone_nonEmpty : (⟨none, Value.vBool true⟩ : Entry).isEmptyBucket = false := by
  simp [Entry.isEmptyBucket]

lemma set_nonEmpty_preserves {entries : List Entry} {j : Nat} {a : Entry}
    (ha : a.isEmptyBucket = false) (i : Nat)
    (h : (bucketAt entries i).isEmptyBucket = false) :
    (bucketAt (entries.set j a) i).isEmptyBucket = false := by
  by_cases hij : i = j
  · subst hij
    by_cases hlt : i < entries.length
    · rw [bucketAt_set_self hlt]
      exact ha
    · rw [List.set_eq_of_length_le (by omega)]
      exact h
  · rw [bucketAt_set_ne hij]
    exact h

/-- Placing a tombstone keeps the bucket array well-formed. -/
lemma entriesWF_set_tombstone {entries : List Entry} {cap : Nat} (hwf : EntriesWF entries cap)
    (hlen : entries.length = cap) {j : Nat} (hj : j < cap) :
    EntriesWF (entries.set j ⟨none, Value.vBool true⟩) cap := by
  have hjl : j < entries.length := by omega
  constructor
  · intro i hi j' hj' hne
    by_cases hij : i = j
    · subst hij
      right
      rw [bucketAt_set_self hjl]
    · rw [bucketAt_set_ne hij]
      by_cases hj'j : j' = j
      · subst hj'j
        rw [bucketAt_set_self hjl]
        rcases hk : (bucketAt entries i).key with _ | k
        · right
          rfl
        · left
          simp
      · rw [bucketAt_set_ne hj'j]
        exact hwf.1 i hi j' hj' hne
  · intro i hi hkey
    by_cases hij : i = j
    · subst hij
      rw [bucketAt_set_self hjl] at hkey
      simp at hkey
    · rw [bucketAt_set_ne hij] at hkey
      have hsh : slotHash (entries.set j ⟨none, Value.vBool true⟩) i = slotHash entries i := by
        unfold slotHash
        rw [bucketAt_set_ne hij]
      rw [hsh]
      obtain ⟨s, hs, hps, hpref⟩ := hwf.2 i hi hkey
      exact ⟨s, hs, hps, fun s' hs' =>
        set_nonEmpty_preserves tombstone_nonEmpty _ (hpref s' hs')⟩

/-- Overwriting the value of an existing key keeps the array well-formed. -/
lemma entriesWF_set_value {entries : List Entry} {cap : Nat} (hwf : EntriesWF entries cap)
    (hlen : entries.length = cap) {j : Nat} {key : ObjString} (v : Value) (hj : j < cap)
    (hk : (bucketAt entries j).key = some key) :
    EntriesWF (entries.set j ⟨some key, v⟩) cap := by
  have hjl : j < entries.length := by omega
  have hkeys : ∀ i, (bucketAt (entries.set j ⟨some key, v⟩) i).key = (bucketAt entries i).key := by
    intro i
    by_cases hij : i = j
    · subst hij
      rw [bucketAt_set_self hjl, hk]
    · rw [bucketAt_set_ne hij]
  constructor
  · intro i hi j' hj' hne
    rw [hkeys, hkeys]
    exact hwf.1 i hi j' hj' hne
  · intro i hi hkey
    rw [hkeys] at hkey
    have hsh : slotHash (entries.set j ⟨some key, v⟩) i = slotHash entries i := by
      unfold slotHash
      rw [hkeys]
    rw [hsh]
    obtain ⟨s, hs, hps, hpref⟩ := hwf.2 i hi hkey
    exact ⟨s, hs, hps, fun s' hs' =>
      set_nonEmpty_preserves (isEmptyBucket_false_of_key_some rfl) _ (hpref s' hs')⟩

/-- Inserting a fresh key at the keyless bucket `findEntry` chose keeps
the array well-formed. -/
lemma entriesWF_set_insert {entries : List Entry} {cap : Nat} (hwf : EntriesWF entries cap)
    (hlen : entries.length = cap) {key : ObjString} {j s₁ : Nat} (v : Value)
    (habs : EntriesAbsent entries key)
    (hj : j < cap) (hjkey : (bucketAt entries j).key = none)
    (hs₁ : s₁ < cap) (hprobe : probe cap (key.hash % cap) s₁ = j)
    (hpref : ∀ s', s' < s₁ →
      ∃ k', (bucketAt entries (probe cap (key.hash % cap) s')).key = some k') :
    EntriesWF (entries.set j ⟨some key, v⟩) cap := by
  have hjl : j < entries.length := by omega
  constructor
  · intro i hi j' hj' hne
    by_cases hij : i = j
    · subst hij
      rw [bucketAt_set_self hjl]
      left
      rw [bucketAt_set_ne (Ne.symm (by omega))]
      rcases hk : (bucketAt entries j').key with _ | k'
      · simp
      · have := entriesAbsent_key_ne habs hk
        simp [this.symm]
    · rw [bucketAt_set_ne hij]
      by_cases hj'j : j' = j
      · subst hj'j
        rw [bucketAt_set_self hjl]
        rcases hk : (bucketAt entries i).key with _ | k'
        · right
          rfl
        · left
          have := entriesAbsent_key_ne habs hk
          simp [this]
      · rw [bucketAt_set_ne hj'j]
        exact hwf.1 i hi j' hj' hne
  · intro i hi hkey
    by_cases hij : i = j
    · subst hij
      have hsh : slotHash (entries.set i ⟨some key, v⟩) i = key.hash := by
        unfold slotHash
        rw [bucketAt_set_self hjl]
        rfl
      rw [hsh]
      refine ⟨s₁, hs₁, hprobe, fun s' hs' => ?_⟩
      have hne : probe cap (key.hash % cap) s' ≠ i := by
        intro hcon
        rw [← hprobe] at hcon
        exact absurd (probe_inj (by omega) hs₁ hcon) (by omega)
      rw [bucketAt_set_ne hne]
      obtain ⟨k', hk'⟩ := hpref s' hs'
      exact isEmptyBucket_false_of_key_some hk'
    · rw [bucketAt_set_ne hij] at hkey
      have hsh : slotHash (entries.set j ⟨some key, v⟩) i = slotHash entries i := by
        unfold slotHash
        rw [bucketAt_set_ne hij]
      rw [hsh]
      obtain ⟨s, hs, hps, hpref'⟩ := hwf.2 i hi hkey
      exact ⟨s, hs, hps, fun s' hs' =>
        set_nonEmpty_preserves (isEmptyBucket_false_of_key_some rfl) _ (hpref' s' hs')⟩

/-! ### `tableDelete`, characterised -/

lemma tableDelete_absent {t : Table} {key : ObjString}
    (habs : EntriesAbsent t.entries key) : tableDelete t key = (false, t) := by
  by_cases hc : t.count = 0
  · simp [tableDelete, hc]
  · rcases Nat.eq_zero_or_pos t.capacity with hcap | hcap
    · have hfe : findEntry t.entries t.capacity key = none := by
        simp [findEntry, hcap, findEntryAux]
      simp [tableDelete, hc, hfe]
    · cases hres : findEntry t.entries t.capacity key with
      | none => simp [tableDelete, hc, hres]
      | some j =>
        rw [findEntry] at hres
        obtain ⟨hj, hkn | ⟨k, hk, hsid⟩⟩ :=
          findEntryAux_some_inv t.capacity _ none j (Nat.mod_lt _ hcap) (by simp) hres
        · rw [← findEntry] at hres
          simp [tableDelete, hc, hres, hkn]
        · exact absurd hsid (entriesAbsent_key_ne habs hk)

lemma tableDelete_present {t : Table} {i : Nat} {key : ObjString} (hwf : TableWF t)
    (hi : i < t.capacity) (hk : (bucketAt t.entries i).key = some key) :
    tableDelete t key =
      (true, ⟨t.count, t.capacity, t.entries.set i ⟨none, Value.vBool true⟩⟩) := by
  have hcount : ¬ t.count = 0 := by
    obtain ⟨hlen, hcnt, hload, hewf⟩ := hwf
    intro h0
    have hmem : bucketAt t.entries i ∈ t.entries := bucketAt_mem (by omega)
    have hz : t.entries.countP (fun e => !e.isEmptyBucket) = 0 := by omega
    rw [List.countP_eq_zero] at hz
    have := hz _ hmem
    rw [isEmptyBucket_false_of_key_some hk] at this
    simp at this
  have hfind := findEntry_found hwf hi hk
  simp [tableDelete, hcount, hfind, hk]

lemma tableWF_delete {t : Table} {i : Nat} {key : ObjString} (hwf : TableWF t)
    (hi : i < t.capacity) (hk : (bucketAt t.entries i).key = some key) :
    TableWF ⟨t.count, t.capacity, t.entries.set i ⟨none, Value.vBool true⟩⟩ := by
  obtain ⟨hlen, hcnt, hload, hewf⟩ := hwf
  refine ⟨by simpa using hlen, ?_, hload, entriesWF_set_tombstone hewf hlen hi⟩
  rw [countP_set_eq_of_true _ (by omega)
    (by rw [isEmptyBucket_false_of_key_some hk]; rfl)
    (by rw [tombstone_nonEmpty]; rfl)]
  exact hcnt

lemma entriesAbsent_after_delete {t : Table} {i : Nat} {key : ObjString} (hwf : TableWF t)
    (hi : i < t.capacity) (hk : (bucketAt t.entries i).key = some key) :
    EntriesAbsent (t.entries.set i ⟨none, Value.vBool true⟩) key := by
  obtain ⟨hlen, hcnt, hload, hewf⟩ := hwf
  intro i' hi'
  rw [List.length_set] at hi'
  by_cases hii : i' = i
  · subst hii
    rw [bucketAt_set_self (by omega)]
    simp
  · rw [bucketAt_set_ne hii]
    rcases hk' : (bucketAt t.entries i').key with _ | k'
    · simp [hk']
    · intro hsid
      exact hii (entriesWF_uniq hewf (by omega) hi hk' hk (by simpa using hsid))

lemma entriesAbsent_of_not_present {t : Table} (hlen : t.entries.length = t.capacity)
    {q : ObjString} (hcoh : SidCoherent t.entries q)
    (hnp : ¬ ∃ i, i < t.capacity ∧ (bucketAt t.entries i).key = some q) :
    EntriesAbsent t.entries q := by
  push_neg at hnp
  intro i hi hmap
  rcases hk0 : (bucketAt t.entries i).key with _ | k₀
  · rw [hk0] at hmap
    simp at hmap
  · have hkey : (bucketAt t.entries i).key = some q := hcoh i hi hmap
    exact hnp i (by omega) hkey

/-- **C10.** For every table `t` and distinct keys `k`, `k'`: after a
`tableDelete t k` that returns true, `tableGet` of `k` returns false, and
`tableGet` of `k'` returns exactly the same result and value as before the
delete - the tombstone left in `k`'s bucket preserves the probe chains of
all other keys. -/
theorem c10_delete_tombstone_preserves_other_keys (t : Table) (k k' : ObjString)
    (hwf : TableWF t) (hsid : k.sid ≠ k'.sid)
    (hcohk : SidCoherent t.entries k) (hcohk' : SidCoherent t.entries k')
    (hdel : (tableDelete t k).1 = true) :
    tableGet (tableDelete t k).2 k = none ∧
    tableGet (tableDelete t k).2 k' = tableGet t k' := by
  obtain ⟨hlen, hcnt, hload, hewf⟩ := id hwf
  have hpres : ∃ i, i < t.capacity ∧ (bucketAt t.entries i).key = some k := by
    by_contra hcon
    rw [tableDelete_absent (entriesAbsent_of_not_present hlen hcohk hcon)] at hdel
    simp at hdel
  obtain ⟨i, hi, hk⟩ := hpres
  rw [tableDelete_present hwf hi hk]
  have hwf' : TableWF ⟨t.count, t.capacity, t.entries.set i ⟨none, Value.vBool true⟩⟩ :=
    tableWF_delete hwf hi hk
  constructor
  · exact tableGet_absent (entriesAbsent_after_delete hwf hi hk)
  · by_cases hpres' : ∃ i', i' < t.capacity ∧ (bucketAt t.entries i').key = some k'
    · obtain ⟨i', hi', hk'⟩ := hpres'
      have hii : i' ≠ i := by
        intro h
        subst h
        rw [hk] at hk'
        exact hsid (by rw [Option.some_inj.mp hk'])
      have hk'new :
          (bucketAt (t.entries.set i ⟨none, Value.vBool true⟩) i').key = some k' := by
        rw [bucketAt_set_ne hii]
        exact hk'
      rw [tableGet_present hwf' hi' hk'new, tableGet_present hwf hi' hk']
      rw [show (bucketAt (t.entries.set i ⟨none, Value.vBool true⟩) i') =
        bucketAt t.entries i' from bucketAt_set_ne hii _]
    · have habs : EntriesAbsent t.entries k' :=
        entriesAbsent_of_not_present hlen hcohk' hpres'
      have habs' : EntriesAbsent (t.entries.set i ⟨none, Value.vBool true⟩) k' := by
        intro i'' hi''
        by_cases hii : i'' = i
        · subst hii
          rw [bucketAt_set_self (by omega)]
          simp
        · rw [bucketAt_set_ne hii]
          exact habs i'' (by simpa [List.length_set] using hi'')
      rw [tableGet_absent habs', tableGet_absent habs]

theorem c10_witness :
    (tableDelete tEx kEx).1 = true ∧
    tableGet (tableDelete tEx kEx).2 kEx = none ∧
    tableGet (tableDelete tEx kEx).2 kEx' = tableGet tEx kEx' :=
  ⟨by decide,
    c10_delete_tombstone_preserves_other_keys tEx kEx kEx' (by decide) (by decide)
      (by decide) (by decide) (by decide)⟩

lemma countP_set_new (p : Entry → Bool) {l : List Entry} {j : Nat} {a : Entry}
    (hj : j < l.length) (h1 : p (bucketAt l j) = false) (h2 : p a = true) :
    (l.set j a).countP p = l.countP p + 1 := by
  induction l generalizing j with
  | nil => simp at hj
  | cons x xs ih =>
    cases j with
    | zero =>
      rw [bucketAt_cons_zero] at h1
      simp only [List.set]
      rw [List.countP_cons, List.countP_cons, h1, h2]
      simp
    | succ n =>
      rw [bucketAt_cons_succ] at h1
      simp only [List.set]
      rw [List.countP_cons, List.countP_cons,
        ih (by simpa using Nat.lt_of_succ_lt_succ hj) h1]
      omega

lemma mapsTo_iff_exists_mem {entries : List Entry} {q : ObjString} {v : Value} :
    MapsTo entries q v ↔ ∃ e ∈ entries, e.key = some q ∧ e.value = v := by
  constructor
  · rintro ⟨i, hi, hb⟩
    exact ⟨bucketAt entries i, bucketAt_mem hi, by rw [hb], by rw [hb]⟩
  · rintro ⟨e, he, hk, hv⟩
    obtain ⟨i, hi, rfl⟩ := List.mem_iff_getElem.mp he
    refine ⟨i, hi, ?_⟩
    rw [bucketAt_eq_getElem hi,
      show entries[i] = ⟨entries[i].key, entries[i].value⟩ from rfl, hk, hv]

lemma hasKey_iff_exists_mapsTo {entries : List Entry} {q : ObjString} :
    HasKey entries q ↔ ∃ v, MapsTo entries q v := by
  constructor
  · rintro ⟨i, hi, hk⟩
    exact ⟨(bucketAt entries i).value, i, hi, by rw [← hk]⟩
  · rintro ⟨v, i, hi, hb⟩
    exact ⟨i, hi, by rw [hb]⟩

lemma mapsTo_set_other {entries : List Entry} {j : Nat} {a : Entry} {q : ObjString} {w : Value}
    (hold : (bucketAt entries j).key ≠ some q) (hnew : a.key ≠ some q) :
    MapsTo (entries.set j a) q w ↔ MapsTo entries q w := by
  constructor
  · rintro ⟨i, hi, hb⟩
    rw [List.length_set] at hi
    by_cases hij : i = j
    · subst hij
      rw [bucketAt_set_self hi] at hb
      rw [hb] at hnew
      simp at hnew
    · rw [bucketAt_set_ne hij] at hb
      exact ⟨i, hi, hb⟩
  · rintro ⟨i, hi, hb⟩
    by_cases hij : i = j
    · subst hij
      rw [hb] at hold
      simp at hold
    · exact ⟨i, by simpa [List.length_set] using hi, by rw [bucketAt_set_ne hij]; exact hb⟩

lemma entryKeysDistinct_of_wf {t : Table} (hwf : TableWF t) :
    entryKeysDistinct t.entries := by
  obtain ⟨hlen, hcnt, hload, hewf⟩ := hwf
  rw [entryKeysDistinct, List.pairwise_iff_getElem]
  intro i j hi hj hij k₁ k₂ hk₁ hk₂ hsid
  have h₁ : (bucketAt t.entries i).key = some k₁ := by
    rw [bucketAt_eq_getElem hi]
    exact hk₁
  have h₂ : (bucketAt t.entries j).key = some k₂ := by
    rw [bucketAt_eq_getElem hj]
    exact hk₂
  have := entriesWF_uniq hewf (by omega) (by omega) h₁ h₂ hsid
  omega

lemma sidCoherent_of_sameKeys {entries entries' : List Entry} {q : ObjString}
    (hsame : ∀ q' v, MapsTo entries' q' v → MapsTo entries q' v)
    (hcoh : SidCoherent entries q) : SidCoherent entries' q := by
  intro i hi hmap
  rcases hk : (bucketAt entries' i).key with _ | k₀
  · rw [hk] at hmap
    simp at hmap
  · rw [hk] at hmap
    simp at hmap
    obtain ⟨i', hi', hb'⟩ := hsame k₀ (bucketAt entries' i).value
      ⟨i, hi, by
        rw [show bucketAt entries' i =
          ⟨(bucketAt entries' i).key, (bucketAt entries' i).value⟩ from rfl, hk]⟩
    have hkq := hcoh i' hi' (by rw [hb']; simpa using hmap)
    rw [hb'] at hkq
    simp only [Option.some_inj] at hkq
    rw [hkq]

/-- The re-insertion fold of `adjustCapacity` preserves the invariant. -/
lemma adjustFold_inv {capacity : Nat} (hcap : 0 < capacity) (K : Nat)
    (hK : 4 * K ≤ 3 * capacity) :
    ∀ (rest done : List Entry) (acc : Nat × List Entry),
    entryKeysDistinct (done ++ rest) →
    keyCount (done ++ rest) ≤ K →
    AdjustInv capacity done acc →
    AdjustInv capacity (done ++ rest) (rest.foldl (adjustStep capacity) acc) := by
  intro rest
  induction rest with
  | nil =>
    intro done acc _ _ hinv
    simpa using hinv
  | cons e rest ih =>
    intro done acc hdist hkc hinv
    have hstep : AdjustInv capacity (done ++ [e]) (adjustStep capacity acc e) := by
      rcases hke : e.key with _ | k
      · -- keyless old bucket: skipped
        rw [show adjustStep capacity acc e = acc from by simp [adjustStep, hke]]
        refine ⟨hinv.len, hinv.cnt, ?_, hinv.noTomb, hinv.wf, ?_⟩
        · rw [hinv.keys, keyCount, keyCount, List.countP_append]
          simp [hke]
        · intro q v
          rw [hinv.maps]
          constructor
          · rintro ⟨e', he', h⟩
            exact ⟨e', by simp [he'], h⟩
          · rintro ⟨e', he', hk', hv'⟩
            rcases List.mem_append.mp he' with h | h
            · exact ⟨e', h, hk', hv'⟩
            · rw [List.mem_singleton.mp h, hke] at hk'
              simp at hk'
      · -- occupied old bucket: re-insert its key
        have habs : EntriesAbsent acc.2 k := by
          intro i hi hmap
          rcases hk₀ : (bucketAt acc.2 i).key with _ | k₀
          · rw [hk₀] at hmap
            simp at hmap
          · rw [hk₀] at hmap
            simp at hmap
            obtain ⟨e', he', hk', -⟩ :=
              (hinv.maps k₀ (bucketAt acc.2 i).value).mp
                ⟨i, hi, by
                  rw [show bucketAt acc.2 i =
                    ⟨(bucketAt acc.2 i).key, (bucketAt acc.2 i).value⟩ from rfl, hk₀]⟩
            have hrel := (List.pairwise_append.mp hdist).2.2 e' he' e (by simp)
            exact hrel k₀ k hk' hke hmap
        have hT : TableWF ⟨acc.1, capacity, acc.2⟩ := by
          refine ⟨hinv.len, le_of_eq hinv.cnt, ?_, hinv.wf⟩
          have h1 : acc.1 = keyCount done := hinv.keys
          have h2 : keyCount done ≤ keyCount (done ++ e :: rest) := by
            rw [keyCount, keyCount, List.countP_append]
            omega
          show 4 * acc.1 ≤ 3 * capacity
          omega
        obtain ⟨j, s₁, hres, hj, hjkey, hs₁, hprobe, hpref⟩ :=
          findEntry_insert_spec hT habs hcap
        have hjl : j < acc.2.length := by
          rw [hinv.len]
          exact hj
        have hempty : (bucketAt acc.2 j).isEmptyBucket = true := by
          rw [isEmptyBucket_iff]
          exact ⟨hjkey, hinv.noTomb j hj hjkey⟩
        have hstep_eq : adjustStep capacity acc e =
            (acc.1 + 1, acc.2.set j ⟨some k, e.value⟩) := by
          simp only [adjustStep, hke, hres]
        rw [hstep_eq]
        refine ⟨by simpa using hinv.len, ?_, ?_, ?_, ?_, ?_⟩
        · -- count
          rw [countP_set_new _ hjl (by rw [hempty]; rfl) (by rw [isEmptyBucket_false_of_key_some (rfl : (⟨some k, e.value⟩ : Entry).key = some k)]; rfl), hinv.cnt]
        · rw [hinv.keys, keyCount, keyCount, List.countP_append]
          simp [hke]
        · -- no tombstones
          intro i hi hkey
          by_cases hij : i = j
          · subst hij
            rw [bucketAt_set_self hjl] at hkey
            simp at hkey
          · rw [bucketAt_set_ne hij] at hkey ⊢
            exact hinv.noTomb i hi hkey
        · exact entriesWF_set_insert hinv.wf hinv.len e.value habs hj hjkey hs₁ hprobe hpref
        · -- the mapping
          intro q v
          by_cases hq : q = k
          · subst hq
            constructor
            · rintro ⟨i, hi, hb⟩
              rw [List.length_set] at hi
              by_cases hij : i = j
              · subst hij
                rw [bucketAt_set_self hjl] at hb
                refine ⟨e, by simp, hke, ?_⟩
                cases hb
                rfl
              · rw [bucketAt_set_ne hij] at hb
                have := habs i (by omega)
                rw [hb] at this
                simp at this
            · rintro ⟨e', he', hk', hv'⟩
              rcases List.mem_append.mp he' with h | h
              · -- q = k cannot already be a key of `done`
                exfalso
                have hm := (hinv.maps q e'.value).mpr ⟨e', h, hk', rfl⟩
                obtain ⟨i, hi, hb⟩ := hm
                have := habs i hi
                rw [hb] at this
                simp at this
              · rw [List.mem_singleton.mp h] at hk' hv'
                rw [hke] at hk'
                cases hk'
                exact ⟨j, by simpa [List.length_set] using hjl,
                  by rw [bucketAt_set_self hjl, hv']⟩
          · have hold : (bucketAt acc.2 j).key ≠ some q := by
              rw [hjkey]
              simp
            have hnew : (⟨some k, e.value⟩ : Entry).key ≠ some q := by
              intro hcon
              exact hq (Option.some_inj.mp hcon).symm
            rw [mapsTo_set_other hold hnew, hinv.maps]
            constructor
            · rintro ⟨e', he', h⟩
              exact ⟨e', by simp [he'], h⟩
            · rintro ⟨e', he', hk', hv'⟩
              rcases List.mem_append.mp he' with h | h
              · exact ⟨e', h, hk', hv'⟩
              · rw [List.mem_singleton.mp h] at hk'
                rw [hke] at hk'
                exact absurd (Option.some_inj.mp hk').symm hq
    have hrw : done ++ e :: rest = (done ++ [e]) ++ rest := by
      simp
    rw [List.foldl_cons]
    rw [hrw] at hdist hkc ⊢
    exact ih (done ++ [e]) (adjustStep capacity acc e) hdist hkc hstep

lemma adjustCapacity_spec {t : Table} (hwf : TableWF t) {cap' : Nat} (hcap' : 0 < cap')
    (hload' : 4 * keyCount t.entries ≤ 3 * cap') :
    (adjustCapacity t cap').capacity = cap' ∧
    (adjustCapacity t cap').count = keyCount t.entries ∧
    TableWF (adjustCapacity t cap') ∧
    (∀ q v, MapsTo (adjustCapacity t cap').entries q v ↔ MapsTo t.entries q v) := by
  have hinit : AdjustInv cap' [] (0, List.replicate cap' default) := by
    refine ⟨by simp, ?_, by simp [keyCount], ?_, ?_, ?_⟩
    · rw [List.countP_eq_zero]
      intro a ha
      rw [List.eq_of_mem_replicate ha]
      decide
    · intro i hi _
      show (List.getD (List.replicate cap' (default : Entry)) i default).value = Value.vNil
      rw [List.getD_eq_getElem?_getD, List.getElem?_replicate, if_pos hi]
      rfl
    · constructor
      · intro i _ j _ _
        right
        show (List.getD (List.replicate cap' (default : Entry)) i default).key = none
        rw [List.getD_eq_getElem?_getD, List.getElem?_replicate]
        rcases Nat.lt_or_ge i cap' with h | h
        · rw [if_pos h]
          rfl
        · rw [if_neg (by omega)]
          rfl
      · intro i hi hkey
        exact absurd (by
          show (List.getD (List.replicate cap' (default : Entry)) i default).key = none
          rw [List.getD_eq_getElem?_getD, List.getElem?_replicate, if_pos hi]
          rfl) hkey
    · intro q v
      constructor
      · rintro ⟨i, hi, hb⟩
        rw [List.length_replicate] at hi
        rw [show bucketAt (0, List.replicate cap' default).2 i =
          (List.replicate cap' default).getD i default from rfl,
          List.getD_eq_getElem?_getD, List.getElem?_replicate, if_pos hi,
          Option.getD_some] at hb
        exact Option.noConfusion (congrArg Entry.key hb)
      · rintro ⟨e, he, -⟩
        simp at he
  have hfold := adjustFold_inv hcap' (keyCount t.entries) hload' t.entries []
      (0, List.replicate cap' default)
      (by simpa [entryKeysDistinct] using entryKeysDistinct_of_wf hwf)
      (by simp) hinit
  simp only [List.nil_append] at hfold
  have hadj : adjustCapacity t cap' =
      ⟨(t.entries.foldl (adjustStep cap') (0, List.replicate cap' default)).1, cap',
        (t.entries.foldl (adjustStep cap') (0, List.replicate cap' default)).2⟩ := rfl
  rw [hadj]
  refine ⟨rfl, hfold.keys, ⟨hfold.len, le_of_eq hfold.cnt, ?_, hfold.wf⟩, ?_⟩
  · have := hfold.keys
    show 4 * (t.entries.foldl (adjustStep cap') (0, List.replicate cap' default)).1 ≤ 3 * cap'
    omega
  · intro q v
    rw [show (⟨(t.entries.foldl (adjustStep cap') (0, List.replicate cap' default)).1, cap',
        (t.entries.foldl (adjustStep cap') (0, List.replicate cap' default)).2⟩ : Table).entries =
      (t.entries.foldl (adjustStep cap') (0, List.replicate cap' default)).2 from rfl]
    rw [hfold.maps q v, ← mapsTo_iff_exists_mem]

lemma tableSetStep_spec (t₁ : Table) (key : ObjString) (v : Value)
    (hwf₁ : TableWF t₁) (hcoh₁ : SidCoherent t₁.entries key)
    (hload₁ : 4 * (t₁.count + 1) ≤ 3 * t₁.capacity) (hcap₁ : 0 < t₁.capacity) :
    TableWF (tableSetStep t₁ key v).2 ∧
    ((tableSetStep t₁ key v).1 = true ↔ ¬ HasKey t₁.entries key) ∧
    MapsTo (tableSetStep t₁ key v).2.entries key v ∧
    (∀ q w, q.sid ≠ key.sid →
      (MapsTo (tableSetStep t₁ key v).2.entries q w ↔ MapsTo t₁.entries q w)) ∧
    (∀ q, HasKey (tableSetStep t₁ key v).2.entries q → q = key ∨ HasKey t₁.entries q) := by
  obtain ⟨hlen₁, hcnt₁, hload₁', hewf₁⟩ := id hwf₁
  by_cases hp : ∃ i, i < t₁.capacity ∧ (bucketAt t₁.entries i).key = some key
  · obtain ⟨i, hi, hk⟩ := hp
    have hfind := findEntry_found hwf₁ hi hk
    have hil : i < t₁.entries.length := by omega
    have hstep : tableSetStep t₁ key v =
        (false, ⟨t₁.count, t₁.capacity, t₁.entries.set i ⟨some key, v⟩⟩) := by
      simp [tableSetStep, hfind, hk]
    rw [hstep]
    refine ⟨?_, ?_, ?_, ?_, ?_⟩
    · refine ⟨by simpa using hlen₁, ?_,
        by show 4 * t₁.count ≤ 3 * t₁.capacity; omega,
        entriesWF_set_value hewf₁ hlen₁ v hi hk⟩
      show (t₁.entries.set i ⟨some key, v⟩).countP (fun e => !e.isEmptyBucket) ≤ t₁.count
      rw [countP_set_eq_of_true _ hil (by rw [isEmptyBucket_false_of_key_some hk]; rfl)
        (by rw [isEmptyBucket_false_of_key_some
          (rfl : (⟨some key, v⟩ : Entry).key = some key)]; rfl)]
      exact hcnt₁
    · constructor
      · intro h
        exact absurd h (by simp)
      · intro h
        exact absurd ⟨i, hil, hk⟩ h
    · exact ⟨i, by simpa using hil, by rw [bucketAt_set_self hil]⟩
    · intro q w hq
      have hold : (bucketAt t₁.entries i).key ≠ some q := by
        rw [hk]
        intro hc
        have hkq := Option.some_inj.mp hc
        exact hq (by rw [hkq])
      have hnew : (⟨some key, v⟩ : Entry).key ≠ some q := by
        intro hc
        have hkq := Option.some_inj.mp hc
        exact hq (by rw [hkq])
      exact mapsTo_set_other hold hnew
    · intro q hq
      obtain ⟨i', hi', hk'⟩ := hq
      rw [List.length_set] at hi'
      by_cases hii : i' = i
      · subst hii
        rw [bucketAt_set_self hi'] at hk'
        left
        exact (Option.some_inj.mp hk').symm
      · right
        exact ⟨i', hi', by rw [bucketAt_set_ne hii] at hk'; exact hk'⟩
  · have habs := entriesAbsent_of_not_present hlen₁ hcoh₁ hp
    obtain ⟨j, s₁, hres, hj, hjkey, hs₁, hprobe, hpref⟩ := findEntry_insert_spec hwf₁ habs hcap₁
    have hjl : j < t₁.entries.length := by omega
    have hnotHasKey : ¬ HasKey t₁.entries key := by
      rintro ⟨i', hi', hk'⟩
      have h := habs i' hi'
      rw [hk'] at h
      simp at h
    have hstep : tableSetStep t₁ key v =
        (true, ⟨if (bucketAt t₁.entries j).value = Value.vNil then t₁.count + 1 else t₁.count,
          t₁.capacity, t₁.entries.set j ⟨some key, v⟩⟩) := by
      simp [tableSetStep, hres, hjkey]
    rw [hstep]
    refine ⟨?_, by simp [hnotHasKey],
      ⟨j, by simpa using hjl, by rw [bucketAt_set_self hjl]⟩, ?_, ?_⟩
    · refine ⟨by simpa using hlen₁, ?_, ?_,
        entriesWF_set_insert hewf₁ hlen₁ v habs hj hjkey hs₁ hprobe hpref⟩
      · show (t₁.entries.set j ⟨some key, v⟩).countP (fun e => !e.isEmptyBucket) ≤
          (if (bucketAt t₁.entries j).value = Value.vNil then t₁.count + 1 else t₁.count)
        by_cases hv : (bucketAt t₁.entries j).value = Value.vNil
        · rw [if_pos hv, countP_set_new _ hjl
            (by rw [isEmptyBucket_iff.mpr ⟨hjkey, hv⟩]; rfl)
            (by rw [isEmptyBucket_false_of_key_some
              (rfl : (⟨some key, v⟩ : Entry).key = some key)]; rfl)]
          omega
        · rw [if_neg hv, countP_set_eq_of_true _ hjl
            (by rw [isEmptyBucket_false_iff.mpr (fun hc => hv hc.2)]; rfl)
            (by rw [isEmptyBucket_false_of_key_some
              (rfl : (⟨some key, v⟩ : Entry).key = some key)]; rfl)]
          exact hcnt₁
      · show 4 * (if (bucketAt t₁.entries j).value = Value.vNil
            then t₁.count + 1 else t₁.count) ≤ 3 * t₁.capacity
        split <;> omega
    · intro q w hq
      have hold : (bucketAt t₁.entries j).key ≠ some q := by
        rw [hjkey]
        simp
      have hnew : (⟨some key, v⟩ : Entry).key ≠ some q := by
        intro hc
        have hkq := Option.some_inj.mp hc
        exact hq (by rw [hkq])
      exact mapsTo_set_other hold hnew
    · intro q hq
      obtain ⟨i', hi', hk'⟩ := hq
      rw [List.length_set] at hi'
      by_cases hii : i' = j
      · subst hii
        rw [bucketAt_set_self hjl] at hk'
        left
        exact (Option.some_inj.mp hk').symm
      · right
        exact ⟨i', hi', by rw [bucketAt_set_ne hii] at hk'; exact hk'⟩

lemma tableSet_spec (t : Table) (key : ObjString) (v : Value)
    (hwf : TableWF t) (hcoh : SidCoherent t.entries key) :
    TableWF (tableSet t key v).2 ∧
    ((tableSet t key v).1 = true ↔ ¬ HasKey t.entries key) ∧
    MapsTo (tableSet t key v).2.entries key v ∧
    (∀ q w, q.sid ≠ key.sid →
      (MapsTo (tableSet t key v).2.entries q w ↔ MapsTo t.entries q w)) ∧
    (∀ q, HasKey (tableSet t key v).2.entries q → q = key ∨ HasKey t.entries q) := by
  obtain ⟨hlen, hcnt, hload, hewf⟩ := id hwf
  by_cases hgrow : 4 * (t.count + 1) > 3 * t.capacity
  · have hkle : keyCount t.entries ≤ t.count := by
      have h1 : keyCount t.entries ≤ t.entries.countP (fun e => !e.isEmptyBucket) := by
        apply List.countP_mono_left
        intro e he hsome
        rcases hke : e.key with _ | k
        · rw [hke] at hsome
          simp at hsome
        · rw [isEmptyBucket_false_of_key_some hke]
          rfl
      omega
    have hcap' : 0 < growCapacity t.capacity := by
      unfold growCapacity
      split <;> omega
    have hload' : 4 * keyCount t.entries ≤ 3 * growCapacity t.capacity := by
      unfold growCapacity
      split <;> omega
    obtain ⟨hc1, hc2, hc3, hc4⟩ := adjustCapacity_spec hwf hcap' hload'
    set t₁ := adjustCapacity t (growCapacity t.capacity) with ht₁
    have heq : tableSet t key v = tableSetStep t₁ key v := by
      simp only [tableSet, if_pos hgrow]
    have hcoh₁ : SidCoherent t₁.entries key :=
      sidCoherent_of_sameKeys (fun q w => (hc4 q w).mp) hcoh
    have hload₁ : 4 * (t₁.count + 1) ≤ 3 * t₁.capacity := by
      rw [hc1, hc2]
      unfold growCapacity
      split <;> omega
    have hcap₁ : 0 < t₁.capacity := by
      rw [hc1]
      exact hcap'
    obtain ⟨hW, hN, hM, hP, hS⟩ := tableSetStep_spec t₁ key v hc3 hcoh₁ hload₁ hcap₁
    rw [heq]
    refine ⟨hW, ?_, hM, ?_, ?_⟩
    · rw [hN]
      have hhk : HasKey t₁.entries key ↔ HasKey t.entries key := by
        rw [hasKey_iff_exists_mapsTo, hasKey_iff_exists_mapsTo]
        constructor
        · rintro ⟨w, hw⟩
          exact ⟨w, (hc4 key w).mp hw⟩
        · rintro ⟨w, hw⟩
          exact ⟨w, (hc4 key w).mpr hw⟩
      rw [hhk]
    · intro q w hq
      rw [hP q w hq, hc4]
    · intro q hq
      rcases hS q hq with h | h
      · exact Or.inl h
      · right
        rw [hasKey_iff_exists_mapsTo] at h ⊢
        obtain ⟨w, hw⟩ := h
        exact ⟨w, (hc4 q w).mp hw⟩
  · have heq : tableSet t key v = tableSetStep t key v := by
      simp only [tableSet, if_neg hgrow]
    have hload₁ : 4 * (t.count + 1) ≤ 3 * t.capacity := by omega
    have hcap₁ : 0 < t.capacity := by omega
    obtain ⟨hW, hN, hM, hP, hS⟩ := tableSetStep_spec t key v hwf hcoh hload₁ hcap₁
    rw [heq]
    exact ⟨hW, hN, hM, hP, hS⟩

/-- **C6.** Executing SET_GLOBAL with a name absent from the globals table
raises the runtime error "Undefined variable" and leaves the globals
mapping unchanged (the provisional insertion made by `tableSet` is undone
by `tableDelete`); with a name that is present it updates that binding to
the value at the top of the stack and does not pop the stack. -/
theorem c6_setGlobal_undefined_and_update (globals : Table) (v : Value) (rest : List Value)
    (name : ObjString) (hwf : TableWF globals) (hcoh : SidCoherent globals.entries name) :
    (¬ HasKey globals.entries name →
      opSetGlobal globals (v :: rest) name =
        StepOut.rtError "Undefined variable '%s'."
          (tableDelete (tableSet globals name v).2 name).2 [] ∧
      (∀ q w, MapsTo (tableDelete (tableSet globals name v).2 name).2.entries q w ↔
        MapsTo globals.entries q w)) ∧
    (HasKey globals.entries name →
      opSetGlobal globals (v :: rest) name =
        StepOut.ok (tableSet globals name v).2 (v :: rest) ∧
      tableGet (tableSet globals name v).2 name = some v ∧
      (∀ q w, q.sid ≠ name.sid →
        (MapsTo (tableSet globals name v).2.entries q w ↔ MapsTo globals.entries q w))) := by
  obtain ⟨hW, hN, hM, hP, hS⟩ := tableSet_spec globals name v hwf hcoh
  obtain ⟨hlen₂, hcnt₂, hload₂, hewf₂⟩ := id hW
  constructor
  · intro habs
    have htrue : (tableSet globals name v).1 = true := hN.mpr habs
    have hpair : tableSet globals name v = (true, (tableSet globals name v).2) := by
      rw [show tableSet globals name v =
        ((tableSet globals name v).1, (tableSet globals name v).2) from rfl, htrue]
    constructor
    · show (match tableSet globals name ((v :: rest).headD Value.vNil) with
        | (true, g') => StepOut.rtError "Undefined variable '%s'." (tableDelete g' name).2 []
        | (false, g') => StepOut.ok g' (v :: rest)) =
        StepOut.rtError "Undefined variable '%s'."
          (tableDelete (tableSet globals name v).2 name).2 []
      rw [show (v :: rest).headD Value.vNil = v from rfl, hpair]
    · obtain ⟨i, hi, hb⟩ := hM
      have hik : (bucketAt (tableSet globals name v).2.entries i).key = some name := by
        rw [hb]
      have hicap : i < (tableSet globals name v).2.capacity := by omega
      have hdel := tableDelete_present hW hicap hik
      rw [hdel]
      intro q w
      by_cases hq : q.sid = name.sid
      · constructor
        · rintro ⟨i', hi', hb'⟩
          exfalso
          have habs₃ := entriesAbsent_after_delete hW hicap hik
          have h := habs₃ i' (by
            show i' < ((tableSet globals name v).2.entries.set i
              ⟨none, Value.vBool true⟩).length
            exact hi')
          rw [hb'] at h
          simp [hq] at h
        · rintro ⟨i', hi', hb'⟩
          exfalso
          have hq' : (bucketAt globals.entries i').key = some q := by rw [hb']
          have hn : (bucketAt globals.entries i').key = some name :=
            hcoh i' hi' (by rw [hq']; simpa using hq)
          exact habs ⟨i', hi', hn⟩
      · have hold : (bucketAt (tableSet globals name v).2.entries i).key ≠ some q := by
          rw [hik]
          intro hc
          exact hq (by rw [← Option.some_inj.mp hc])
        have hnew : (⟨none, Value.vBool true⟩ : Entry).key ≠ some q := by simp
        show MapsTo ((tableSet globals name v).2.entries.set i ⟨none, Value.vBool true⟩) q w ↔ _
        rw [mapsTo_set_other hold hnew]
        exact hP q w hq
  · intro hpres
    have hfalse : (tableSet globals name v).1 = false := by
      cases hres : (tableSet globals name v).1 with
      | true => exact absurd hpres (hN.mp hres)
      | false => rfl
    have hpair : tableSet globals name v = (false, (tableSet globals name v).2) := by
      rw [show tableSet globals name v =
        ((tableSet globals name v).1, (tableSet globals name v).2) from rfl, hfalse]
    refine ⟨?_, ?_, fun q w hq => hP q w hq⟩
    · show (match tableSet globals name ((v :: rest).headD Value.vNil) with
        | (true, g') => StepOut.rtError "Undefined variable '%s'." (tableDelete g' name).2 []
        | (false, g') => StepOut.ok g' (v :: rest)) =
        StepOut.ok (tableSet globals name v).2 (v :: rest)
      rw [show (v :: rest).headD Value.vNil = v from rfl, hpair]
    · obtain ⟨i, hi, hb⟩ := hM
      have hik : (bucketAt (tableSet globals name v).2.entries i).key = some name := by
        rw [hb]
      have := tableGet_present hW (by omega) hik
      rw [this, hb]

theorem c6_witness :
    opSetGlobal gC6 (Value.vNumber 5 :: []) nC6 =
      StepOut.ok (tableSet gC6 nC6 (Value.vNumber 5)).2 (Value.vNumber 5 :: []) ∧
    tableGet (tableSet gC6 nC6 (Value.vNumber 5)).2 nC6 = some (Value.vNumber 5) ∧
    (∀ q w, q.sid ≠ nC6.sid →
      (MapsTo (tableSet gC6 nC6 (Value.vNumber 5)).2.entries q w ↔
        MapsTo gC6.entries q w)) :=
  (c6_setGlobal_undefined_and_update gC6 (Value.vNumber 5) [] nC6
    (by decide) (by decide)).2 (by decide)

lemma takeString_eq_copyString (st : StrPool) (chars : List Nat) :
    takeString st chars = copyString st chars := rfl

/-- Whatever `tableFindString`'s loop returns is a stored key whose
length, hash and bytes match the query. -/
lemma tableFindStringAux_some_inv {entries : List Entry} {cap : Nat} {chars : List Nat}
    {length hash : Nat} :
    ∀ (fuel start : Nat) (k : ObjString), start < cap →
    tableFindStringAux entries cap chars length hash fuel start = some k →
    (∃ i, i < cap ∧ (bucketAt entries i).key = some k) ∧
      k.chars.length = length ∧ k.hash = hash ∧ k.chars = chars := by
  intro fuel
  induction fuel with
  | zero =>
    intro start k _ hres
    simp [tableFindStringAux] at hres
  | succ fuel ih =>
    intro start k hstart hres
    rcases hkey : (bucketAt entries start).key with _ | k₀
    · by_cases hv : (bucketAt entries start).value = Value.vNil
      · simp only [tableFindStringAux, hkey, if_pos hv] at hres
        exact Option.noConfusion hres
      · simp only [tableFindStringAux, hkey, if_neg hv] at hres
        exact ih ((start + 1) % cap) k (Nat.mod_lt _ (by omega)) hres
    · by_cases hcond : k₀.chars.length = length ∧ k₀.hash = hash ∧ k₀.chars = chars
      · simp only [tableFindStringAux, hkey, if_pos hcond, Option.some_inj] at hres
        subst hres
        exact ⟨⟨start, hstart, hkey⟩, hcond⟩
      · simp only [tableFindStringAux, hkey, if_neg hcond] at hres
        exact ih ((start + 1) % cap) k (Nat.mod_lt _ (by omega)) hres

/-- If a stored key matches the query bytes and hash, the loop finds a key
with those bytes. -/
lemma tableFindStringAux_found {entries : List Entry} {cap : Nat} {chars : List Nat}
    {hash : Nat} :
    ∀ (s fuel start : Nat), s < fuel → start < cap →
    (∀ s', s' < s → (bucketAt entries (probe cap start s')).isEmptyBucket = false) →
    (∃ k₀, (bucketAt entries (probe cap start s)).key = some k₀ ∧
      k₀.chars = chars ∧ k₀.hash = hash) →
    ∃ k', tableFindStringAux entries cap chars chars.length hash fuel start = some k' ∧
      k'.chars = chars := by
  intro s
  induction s with
  | zero =>
    intro fuel start hfuel hstart _ hmatch
    obtain ⟨fuel, rfl⟩ : ∃ f, fuel = f + 1 := ⟨fuel - 1, by omega⟩
    obtain ⟨k₀, hk₀, hchars, hhash⟩ := hmatch
    rw [probe_zero hstart] at hk₀
    refine ⟨k₀, ?_, hchars⟩
    have hcond : k₀.chars.length = chars.length ∧ k₀.hash = hash ∧ k₀.chars = chars :=
      ⟨by rw [hchars], hhash, hchars⟩
    simp only [tableFindStringAux, hk₀, if_pos hcond]
  | succ s ih =>
    intro fuel start hfuel hstart hpass hmatch
    obtain ⟨fuel, rfl⟩ : ∃ f, fuel = f + 1 := ⟨fuel - 1, by omega⟩
    have h0 := hpass 0 (Nat.succ_pos s)
    rw [probe_zero hstart] at h0
    have hstart' : (start + 1) % cap < cap := Nat.mod_lt _ (by omega)
    have hpass' : ∀ s', s' < s →
        (bucketAt entries (probe cap ((start + 1) % cap) s')).isEmptyBucket = false := by
      intro s' hs'
      rw [probe_shift]
      exact hpass (s' + 1) (by omega)
    have hmatch' : ∃ k₀, (bucketAt entries (probe cap ((start + 1) % cap) s)).key = some k₀ ∧
        k₀.chars = chars ∧ k₀.hash = hash := by
      rw [probe_shift]
      exact hmatch
    rcases hkey : (bucketAt entries start).key with _ | k₁
    · have hne : (bucketAt entries start).value ≠ Value.vNil := by
        intro hv
        rw [isEmptyBucket_false_iff] at h0
        exact h0 ⟨hkey, hv⟩
      simp only [tableFindStringAux, hkey, if_neg hne]
      exact ih fuel ((start + 1) % cap) (by omega) hstart' hpass' hmatch'
    · by_cases hcond : k₁.chars.length = chars.length ∧ k₁.hash = hash ∧ k₁.chars = chars
      · refine ⟨k₁, ?_, hcond.2.2⟩
        simp only [tableFindStringAux, hkey, if_pos hcond]
      · simp only [tableFindStringAux, hkey, if_neg hcond]
        exact ih fuel ((start + 1) % cap) (by omega) hstart' hpass' hmatch'

/-- `tableFindString` finds some key with the queried bytes whenever one
is stored (and its cached hash equals the queried hash). -/
lemma tableFindString_present {t : Table} (hwf : TableWF t) {chars : List Nat}
    {k₀ : ObjString} {i : Nat} (hi : i < t.capacity)
    (hk : (bucketAt t.entries i).key = some k₀)
    (hchars : k₀.chars = chars) (hhash : k₀.hash = hashString chars) :
    ∃ k', tableFindString t chars chars.length (hashString chars) = some k' ∧
      k'.chars = chars := by
  obtain ⟨hlen, hcnt, hload, hewf⟩ := id hwf
  have hcount : ¬ t.count = 0 := by
    intro h0
    have hmem : bucketAt t.entries i ∈ t.entries := bucketAt_mem (by omega)
    have hz : t.entries.countP (fun e => !e.isEmptyBucket) = 0 := by omega
    rw [List.countP_eq_zero] at hz
    have := hz _ hmem
    rw [isEmptyBucket_false_of_key_some hk] at this
    simp at this
  have hcap : 0 < t.capacity := by omega
  obtain ⟨s, hs, hps, hpref⟩ := entriesWF_path hewf hi hk
  rw [hhash] at hps hpref
  obtain ⟨k', hres, hchars'⟩ := tableFindStringAux_found s t.capacity
    (hashString chars % t.capacity) hs (Nat.mod_lt _ hcap) hpref
    ⟨k₀, by rw [hps]; exact hk, hchars, by rw [hhash]⟩
  refine ⟨k', ?_, hchars'⟩
  simp only [tableFindString, hcount, if_neg hcount]
  exact hres

/-- Fresh identities make coherence and insertion-side conditions
automatic. -/
lemma poolInv_preserved (st : StrPool) (chars : List Nat) (hinv : PoolInv st) :
    PoolInv (copyString st chars).2 ∧
    ((copyString st chars).2 = st ∨
      (copyString st chars).2.strings = (tableSet st.strings
        ⟨st.nextId, chars, hashString chars⟩ Value.vNil).2) := by
  obtain ⟨hwf, hkeys, huniq⟩ := hinv
  cases hfind : tableFindString st.strings chars chars.length (hashString chars) with
  | some interned =>
    constructor
    · rw [show (copyString st chars).2 = st by simp [copyString, hfind]]
      exact ⟨hwf, hkeys, huniq⟩
    · left
      simp [copyString, hfind]
  | none =>
    have heq : (copyString st chars).2 =
        ⟨(tableSet st.strings ⟨st.nextId, chars, hashString chars⟩ Value.vNil).2,
          st.nextId + 1⟩ := by
      simp [copyString, hfind, allocateString]
    have hcoh : SidCoherent st.strings.entries ⟨st.nextId, chars, hashString chars⟩ := by
      intro i hi hmap
      rcases hk : (bucketAt st.strings.entries i).key with _ | k₁
      · rw [hk] at hmap
        simp at hmap
      · exfalso
        rw [hk] at hmap
        simp at hmap
        have := (hkeys k₁ ⟨i, hi, hk⟩).2
        omega
    obtain ⟨hW, hN, hM, hP, hS⟩ :=
      tableSet_spec st.strings ⟨st.nextId, chars, hashString chars⟩ Value.vNil hwf hcoh
    have habsent : ∀ k₁, HasKey st.strings.entries k₁ → k₁.chars ≠ chars := by
      intro k₁ hk₁ hchars
      obtain ⟨i, hi, hk⟩ := hk₁
      obtain ⟨hhash, -⟩ := hkeys k₁ ⟨i, hi, hk⟩
      obtain ⟨k', hres, -⟩ := tableFindString_present hwf
        (by rw [hwf.1] at hi; exact hi) hk hchars (by rw [hhash, hchars])
      rw [hfind] at hres
      exact Option.noConfusion hres
    have hsub : ∀ k₁, HasKey (tableSet st.strings ⟨st.nextId, chars, hashString chars⟩
        Value.vNil).2.entries k₁ →
        k₁ = ⟨st.nextId, chars, hashString chars⟩ ∨ HasKey st.strings.entries k₁ := hS
    constructor
    · rw [heq]
      refine ⟨hW, ?_, ?_⟩
      · intro k₁ hk₁
        rcases hsub k₁ hk₁ with h | h
        · subst h
          exact ⟨rfl, by show st.nextId < st.nextId + 1; omega⟩
        · obtain ⟨h1, h2⟩ := hkeys k₁ h
          exact ⟨h1, by show k₁.sid < st.nextId + 1; omega⟩
      · intro k₁ k₂ hk₁ hk₂ hchars
        rcases hsub k₁ hk₁ with h1 | h1 <;> rcases hsub k₂ hk₂ with h2 | h2
        · rw [h1, h2]
        · subst h1
          exact absurd hchars.symm (habsent k₂ h2)
        · subst h2
          exact absurd hchars (habsent k₁ h1)
        · exact huniq k₁ k₂ h1 h2 hchars
    · right
      rw [heq]

lemma poolInv_of_reached {st : StrPool} (hr : PoolReached st) : PoolInv st := by
  induction hr with
  | init =>
    refine ⟨⟨rfl, by simp [initTable], by simp [initTable], ?_, ?_⟩, ?_, ?_⟩
    · intro i hi
      simp [initTable] at hi
    · intro i hi
      simp [initTable] at hi
    · rintro k ⟨i, hi, -⟩
      simp [initTable] at hi
    · rintro k k' ⟨i, hi, -⟩
      simp [initTable] at hi
  | copy st chars _ ih =>
    exact (poolInv_preserved st chars ih).1
  | take st chars _ ih =>
    rw [takeString_eq_copyString]
    exact (poolInv_preserved st chars ih).1

/-- **C7.** After any sequence of string creations through `copyString`
and `takeString`, any two string objects with equal byte sequences are the
same object reference; a call whose bytes equal an existing interned
string returns that existing object and leaves the pool unchanged рather
than allocating. -/
theorem c7_interning_unique (st : StrPool) (hr : PoolReached st) :
    (∀ k k', HasKey st.strings.entries k → HasKey st.strings.entries k' →
      k.chars = k'.chars → k = k') ∧
    (∀ (chars : List Nat) (k₀ : ObjString) (i : Nat), i < st.strings.capacity →
      (bucketAt st.strings.entries i).key = some k₀ → k₀.chars = chars →
      copyString st chars = (k₀, st) ∧ takeString st chars = (k₀, st)) := by
  obtain ⟨hwf, hkeys, huniq⟩ := poolInv_of_reached hr
  refine ⟨huniq, ?_⟩
  intro chars k₀ i hi hk hchars
  have hkk : HasKey st.strings.entries k₀ := ⟨i, by rw [hwf.1]; exact hi, hk⟩
  obtain ⟨hhash, -⟩ := hkeys k₀ hkk
  obtain ⟨k', hres, hchars'⟩ :=
    tableFindString_present hwf hi hk hchars (by rw [hhash, hchars])
  obtain ⟨⟨i', hi', hk'⟩, -, -, -⟩ := by
    have hcount : ¬ st.strings.count = 0 := by
      intro h0
      obtain ⟨hlen, hcnt, -, -⟩ := id hwf
      have hmem : bucketAt st.strings.entries i ∈ st.strings.entries :=
        bucketAt_mem (by omega)
      have hz : st.strings.entries.countP (fun e => !e.isEmptyBucket) = 0 := by omega
      rw [List.countP_eq_zero] at hz
      have := hz _ hmem
      rw [isEmptyBucket_false_of_key_some hk] at this
      simp at this
    rw [tableFindString, if_neg hcount] at hres
    exact tableFindStringAux_some_inv st.strings.capacity _ k'
      (Nat.mod_lt _ (by omega)) hres
  have hkk' : HasKey st.strings.entries k' := ⟨i', by rw [hwf.1]; exact hi', hk'⟩
  have hk'₀ : k' = k₀ := huniq k' k₀ hkk' hkk (by rw [hchars', hchars])
  subst hk'₀
  constructor
  · simp [copyString, hres]
  · simp [takeString, hres]

theorem c7_witness :
    copyString poolWit [97] = (kWit, poolWit) ∧ takeString poolWit [97] = (kWit, poolWit) :=
  (c7_interning_unique poolWit (PoolReached.copy _ _ PoolReached.init)).2
    [97] kWit (kWit.hash % 8) (by decide) (by decide) (by decide)

lemma allOpen_slot {lst : List ObjUpvalueM} {u : ObjUpvalueM}
    (h : allOpen lst) (hu : u ∈ lst) : u.location = UpvLoc.stackSlot (upvSlot u) := by
  rcases hl : u.location with i | _
  · rw [upvSlot, hl]
  · exact absurd hl (h u hu)

lemma capture_reuse {slot : Nat} :
    ∀ (lst : List ObjUpvalueM) (fresh : Nat), allOpen lst → openSorted lst →
    ∀ u ∈ lst, u.location = UpvLoc.stackSlot slot →
    captureUpvalue lst fresh slot = (u, lst) := by
  intro lst
  induction lst with
  | nil =>
    intro fresh _ _ u hu
    simp at hu
  | cons u₀ rest ih =>
    intro fresh hopen hsorted u hu hslot
    rw [openSorted, List.pairwise_cons] at hsorted
    rcases List.mem_cons.mp hu with rfl | hu
    · rw [captureUpvalue, if_neg (by simp [hslot, locGt]), if_pos (by simp [hslot, locEq])]
    · have hly : upvSlot u < upvSlot u₀ := hsorted.1 u hu
      have husl : upvSlot u = slot := by
        rw [upvSlot, hslot]
      have h₀ := allOpen_slot hopen (List.mem_cons_self u₀ rest)
      rw [captureUpvalue, if_pos (by rw [h₀]; simp [locGt]; omega)]
      show ((captureUpvalue rest fresh slot).1, u₀ :: (captureUpvalue rest fresh slot).2) =
        (u, u₀ :: rest)
      rw [ih fresh (fun v hv => hopen v (by simp [hv])) hsorted.2 u hu hslot]

lemma capture_fresh {slot : Nat} :
    ∀ (lst : List ObjUpvalueM) (fresh : Nat), allOpen lst → openSorted lst →
    (∀ u ∈ lst, u.location ≠ UpvLoc.stackSlot slot) →
    (captureUpvalue lst fresh slot).1 = newUpvalue fresh slot ∧
    allOpen (captureUpvalue lst fresh slot).2 ∧
    openSorted (captureUpvalue lst fresh slot).2 ∧
    (∀ u, u ∈ (captureUpvalue lst fresh slot).2 ↔
      u ∈ lst ∨ u = newUpvalue fresh slot) := by
  intro lst
  induction lst with
  | nil =>
    intro fresh _ _ _
    refine ⟨rfl, ?_, ?_, ?_⟩
    · intro u hu
      rw [List.mem_singleton.mp hu]
      simp [newUpvalue]
    · simp [openSorted, captureUpvalue]
    · intro u
      simp [captureUpvalue]
  | cons u₀ rest ih =>
    intro fresh hopen hsorted hnone
    rw [openSorted, List.pairwise_cons] at hsorted
    have h₀ := allOpen_slot hopen (List.mem_cons_self u₀ rest)
    have hne : upvSlot u₀ ≠ slot := by
      intro hcon
      exact hnone u₀ (by simp) (by rw [h₀, hcon])
    by_cases hgt : slot < upvSlot u₀
    · rw [captureUpvalue, if_pos (by rw [h₀]; simp [locGt]; omega)]
      obtain ⟨ih1, ih2, ih3, ih4⟩ := ih fresh (fun v hv => hopen v (by simp [hv]))
        hsorted.2 (fun v hv => hnone v (by simp [hv]))
      refine ⟨ih1, ?_, ?_, ?_⟩
      · intro u hu
        rcases List.mem_cons.mp hu with rfl | hu
        · exact hopen u (by simp)
        · exact ih2 u hu
      · rw [openSorted, List.pairwise_cons]
        refine ⟨?_, ih3⟩
        intro v hv
        rcases (ih4 v).mp hv with hvold | rfl
        · exact hsorted.1 v hvold
        · rw [show upvSlot (newUpvalue fresh slot) = slot from rfl]
          exact hgt
      · intro u
        constructor
        · intro hu
          rcases List.mem_cons.mp hu with rfl | hu
          · exact Or.inl (by simp)
          · rcases (ih4 u).mp hu with h | h
            · exact Or.inl (by simp [h])
            · exact Or.inr h
        · intro hu
          rcases hu with hu | hu
          · rcases List.mem_cons.mp hu with rfl | hu
            · exact List.mem_cons_self _ _
            · exact List.mem_cons_of_mem _ ((ih4 u).mpr (Or.inl hu))
          · exact List.mem_cons_of_mem _ ((ih4 u).mpr (Or.inr hu))
    · rw [captureUpvalue, if_neg (by rw [h₀]; simp [locGt]; omega),
        if_neg (by rw [h₀]; simp [locEq]; omega)]
      refine ⟨rfl, ?_, ?_, ?_⟩
      · intro u hu
        rcases List.mem_cons.mp hu with rfl | hu
        · simp [newUpvalue]
        · exact hopen u hu
      · rw [openSorted, List.pairwise_cons]
        constructor
        · intro v hv
          rcases List.mem_cons.mp hv with rfl | hv
          · rw [show upvSlot (newUpvalue fresh slot) = slot from rfl]
            omega
          · have := hsorted.1 v hv
            rw [show upvSlot (newUpvalue fresh slot) = slot from rfl]
            omega
        · exact List.pairwise_cons.mpr ⟨hsorted.1, hsorted.2⟩
      · intro u
        simp [newUpvalue]
        tauto

lemma close_spec {last : Nat} (stack : List Value) :
    ∀ (lst : List ObjUpvalueM), allOpen lst → openSorted lst →
    closeUpvalues stack lst last =
      ((lst.filter (fun u => locGe u.location last)).map
        (fun u => ⟨u.uid, UpvLoc.ownClosed, derefLoc stack u⟩),
       lst.filter (fun u => !locGe u.location last)) := by
  intro lst
  induction lst with
  | nil =>
    intro _ _
    simp [closeUpvalues]
  | cons u₀ rest ih =>
    intro hopen hsorted
    rw [openSorted, List.pairwise_cons] at hsorted
    have h₀ := allOpen_slot hopen (List.mem_cons_self u₀ rest)
    by_cases hge : last ≤ upvSlot u₀
    · have hiGe : locGe u₀.location last = true := by
        rw [h₀]
        simp [locGe]
        omega
      rw [closeUpvalues, if_pos hiGe]
      rw [ih (fun v hv => hopen v (by simp [hv])) hsorted.2]
      simp [List.filter_cons, hiGe]
    · have hiGe : locGe u₀.location last = false := by
        rw [h₀]
        simp [locGe]
        omega
      have hrest : ∀ v ∈ rest, locGe v.location last = false := by
        intro v hv
        have hlt := hsorted.1 v hv
        rw [allOpen_slot hopen (List.mem_cons_of_mem _ hv)]
        simp [locGe]
        omega
      rw [closeUpvalues, if_neg (by simp [hiGe])]
      have hfilter₁ : (u₀ :: rest).filter (fun u => locGe u.location last) = [] := by
        rw [List.filter_eq_nil_iff]
        intro v hv
        rcases List.mem_cons.mp hv with rfl | hv
        · simp [hiGe]
        · simp [hrest v hv]
      have hfilter₂ : (u₀ :: rest).filter (fun u => !locGe u.location last) = u₀ :: rest := by
        rw [List.filter_eq_self]
        intro v hv
        rcases List.mem_cons.mp hv with rfl | hv
        · simp [hiGe]
        · simp [hrest v hv]
      rw [hfilter₁, hfilter₂]
      rfl

/-- **C8.** The open-upvalue list is kept sorted by strictly descending
stack slot with at most one open upvalue per slot: `captureUpvalue`
returns the existing upvalue when one for the target slot is on the list
and otherwise splices a new one in at the sorted position, and
`closeUpvalues` removes exactly the upvalues whose location is at or above
the cutoff, copying each slot's value into the upvalue and retargeting its
location to its own `closed` field. -/
theorem c8_open_upvalue_list (lst : List ObjUpvalueM) (stack : List Value)
    (fresh slot last : Nat)
    (hopen : allOpen lst) (hsorted : openSorted lst) :
    (∀ u ∈ lst, u.location = UpvLoc.stackSlot slot →
      captureUpvalue lst fresh slot = (u, lst)) ∧
    ((∀ u ∈ lst, u.location ≠ UpvLoc.stackSlot slot) →
      (captureUpvalue lst fresh slot).1 = newUpvalue fresh slot ∧
      allOpen (captureUpvalue lst fresh slot).2 ∧
      openSorted (captureUpvalue lst fresh slot).2 ∧
      (∀ u, u ∈ (captureUpvalue lst fresh slot).2 ↔
        u ∈ lst ∨ u = newUpvalue fresh slot)) ∧
    closeUpvalues stack lst last =
      ((lst.filter (fun u => locGe u.location last)).map
        (fun u => ⟨u.uid, UpvLoc.ownClosed, derefLoc stack u⟩),
       lst.filter (fun u => !locGe u.location last)) :=
  ⟨fun u hu hs => capture_reuse lst fresh hopen hsorted u hu hs,
   fun hn => capture_fresh lst fresh hopen hsorted hn,
   close_spec stack lst hopen hsorted⟩

theorem c8_witness :
    (∀ u ∈ upvListC8, u.location = UpvLoc.stackSlot 3 →
      captureUpvalue upvListC8 7 3 = (u, upvListC8)) ∧
    ((∀ u ∈ upvListC8, u.location ≠ UpvLoc.stackSlot 3) →
      (captureUpvalue upvListC8 7 3).1 = newUpvalue 7 3 ∧
      allOpen (captureUpvalue upvListC8 7 3).2 ∧
      openSorted (captureUpvalue upvListC8 7 3).2 ∧
      (∀ u, u ∈ (captureUpvalue upvListC8 7 3).2 ↔
        u ∈ upvListC8 ∨ u = newUpvalue 7 3)) ∧
    closeUpvalues stackC8 upvListC8 3 =
      ((upvListC8.filter (fun u => locGe u.location 3)).map
        (fun u => ⟨u.uid, UpvLoc.ownClosed, derefLoc stackC8 u⟩),
       upvListC8.filter (fun u => !locGe u.location 3)) :=
  c8_open_upvalue_list upvListC8 stackC8 7 3 3 (by decide) (by decide)

/-- **C5** fails on this code: `newClosure(f)` references `f`, but its
`upvalueCount` does not equal `f.upvalueCount` (it is uninitialized), and
its `upvalues` field is not an initialized array of that length - the
assignments present in the book's clox are missing from object.c. -/
theorem c5_newClosure_leaves_fields_uninitialized :
    (newClosure ⟨0, 1, []⟩).function = ⟨0, 1, []⟩ ∧
    (newClosure ⟨0, 1, []⟩).upvalueCount = none ∧
    (newClosure ⟨0, 1, []⟩).upvalues = none ∧
    (⟨0, 1, []⟩ : ObjFunctionM).upvalueCount = 1 := by
  refine ⟨rfl, rfl, rfl, rfl⟩

/-- **C9.** When CALL n targets a closure: an arity mismatch raises a
runtime error and pushes no frame; with `frameCount` at FRAMES_MAX (64)
the "Stack overflow." error is raised; otherwise a frame is pushed whose
ip is the start of the function's chunk and whose slots pointer is
`stackTop - n - 1`, so the callee sits in the frame's slot 0 and the
arguments in slots 1..n. -/
theorem c9_call_convention (vmst : VMCall) (closure : ObjClosureM) (argCount : Nat)
    (pre args : List Value) (callee : Value)
    (hstack : vmst.stack = pre ++ callee :: args)
    (hargs : args.length = argCount) :
    (argCount ≠ closure.function.arity →
      callFn vmst closure argCount = Except.error ("Expected " ++
        toString closure.function.arity ++ " arguments but got " ++
        toString argCount ++ ".")) ∧
    (argCount = closure.function.arity → vmst.frames.length = FRAMES_MAX →
      callFn vmst closure argCount = Except.error "Stack overflow.") ∧
    (argCount = closure.function.arity → vmst.frames.length < FRAMES_MAX →
      callFn vmst closure argCount = Except.ok
        ⟨vmst.frames ++ [⟨closure, 0, vmst.stack.length - argCount - 1⟩], vmst.stack⟩ ∧
      vmst.stack.length - argCount - 1 = pre.length ∧
      vmst.stack.getD pre.length Value.vNil = callee ∧
      (∀ j, j < argCount →
        vmst.stack.getD (pre.length + 1 + j) Value.vNil = args.getD j Value.vNil)) := by
  refine ⟨fun hne => by rw [callFn, if_pos hne], ?_, ?_⟩
  · intro heq hmax
    rw [callFn, if_neg (by omega), if_pos hmax]
  · intro heq hlt
    have hlen : vmst.stack.length = pre.length + 1 + args.length := by
      rw [hstack]
      simp
      omega
    refine ⟨by rw [callFn, if_neg (by omega), if_neg (by omega)], by omega, ?_, ?_⟩
    · rw [hstack, List.getD_eq_getElem?_getD, List.getElem?_append_right (le_refl _)]
      simp
    · intro j hj
      rw [hstack, List.getD_eq_getElem?_getD,
        List.getElem?_append_right (by omega : pre.length ≤ pre.length + 1 + j)]
      have hidx : pre.length + 1 + j - pre.length = j + 1 := by omega
      rw [hidx]
      rw [List.getElem?_cons_succ, List.getD_eq_getElem?_getD]

theorem c9_witness :
    (2 ≠ closC9.function.arity →
      callFn vmC9 closC9 2 = Except.error ("Expected " ++
        toString closC9.function.arity ++ " arguments but got " ++ toString 2 ++ ".")) ∧
    (2 = closC9.function.arity → vmC9.frames.length = FRAMES_MAX →
      callFn vmC9 closC9 2 = Except.error "Stack overflow.") ∧
    (2 = closC9.function.arity → vmC9.frames.length < FRAMES_MAX →
      callFn vmC9 closC9 2 = Except.ok
        ⟨vmC9.frames ++ [⟨closC9, 0, vmC9.stack.length - 2 - 1⟩], vmC9.stack⟩ ∧
      vmC9.stack.length - 2 - 1 = [Value.vNumber 1].length ∧
      vmC9.stack.getD [Value.vNumber 1].length Value.vNil = Value.vObj 9 ∧
      (∀ j, j < 2 →
        vmC9.stack.getD ([Value.vNumber 1].length + 1 + j) Value.vNil =
          [Value.vNumber 2, Value.vNumber 3].getD j Value.vNil)) :=
  c9_call_convention vmC9 closC9 2 [Value.vNumber 1]
    [Value.vNumber 2, Value.vNumber 3] (Value.vObj 9) rfl rfl

/-- **C4** fails on this code: with a single trailing pair
`(isLocal = 0, index = 1)` at loop position `i = 0` and parent upvalues
`[10, 11]`, the claim requires the new closure's upvalue 0 to be parent
upvalue `index = 1` (object 11); the code instead assigns parent upvalue
`i = 0` (object 10). -/
theorem c4_opClosure_uses_loop_index_not_operand :
    opClosurePopulate [(0, 1)] 0 [10, 11] 0 = [UpvRef.fromParent 10] ∧
    [10, 11].getD 1 0 = 11 ∧ (10 : Nat) ≠ 11 := by
  refine ⟨rfl, rfl, by decide⟩

/-- **C1** fails on this code: the class (object 0) and its name
(object 1) are reachable from the roots through the instance on the VM
stack, yet `collectGarbage` frees both and keeps only the instance -
`blackenObject`'s switch has no `OBJ_INSTANCE` case, so blackening
an instance marks neither its class nor its fields. -/
theorem c1_gc_frees_reachable_class :
    0 ∈ specReachable vmC1 ∧ 1 ∈ specReachable vmC1 ∧
    (collectGarbage 10 vmC1).freed = [0, 1] ∧
    (collectGarbage 10 vmC1).kept = [2] := by
  refine ⟨by decide, by decide, by decide, by decide⟩

/-- **C2** fails on this code: the next lexeme of `"var"`, `"while"` or
`"x"` is a keyword or an identifier, yet `scanToken` returns an ERROR
token ("Unexpected character.") because scanner.c has no
identifier/keyword branch at all. -/
theorem c2_scanToken_rejects_keywords_and_identifiers :
    (scanToken (initScanner "var".toList)).1.ttype = TokenType.TOKEN_ERROR ∧
    (scanToken (initScanner "var".toList)).1.lexeme = "Unexpected character.".toList ∧
    (scanToken (initScanner "while".toList)).1.ttype = TokenType.TOKEN_ERROR ∧
    (scanToken (initScanner "x".toList)).1.ttype = TokenType.TOKEN_ERROR := by
  refine ⟨by decide, by decide, by decide, by decide⟩

/-- **C3** fails on this code: the rules table registers `and_` and `or_`
at PREC_NONE instead of PREC_AND / PREC_OR, which lies below Assignment
on the ladder, so `parsePrecedence(PREC_ASSIGNMENT)` never enters the
infix loop for `and`/`or`: compiling `a and b;` stops after `a`, emits
only GET_GLOBAL (no JUMP_IF_FALSE, no POP of the left operand) and
reports "Expect ';' after expression." instead of accepting the
expression. -/
theorem c3_and_or_rules_at_prec_none :
    (rules TokenType.TOKEN_AND).infixFn = some ParseFnId.fAnd ∧
    (rules TokenType.TOKEN_AND).precedence = PREC_NONE ∧
    (rules TokenType.TOKEN_OR).infixFn = some ParseFnId.fOr ∧
    (rules TokenType.TOKEN_OR).precedence = PREC_NONE ∧
    PREC_NONE < PREC_ASSIGNMENT ∧ PREC_ASSIGNMENT < PREC_OR ∧ PREC_OR < PREC_AND ∧
    (expressionStatement 20 (initParse c3Tokens)).hadError = true ∧
    (expressionStatement 20 (initParse c3Tokens)).errors =
      ["Expect ';' after expression.".toList] ∧
    chunkOf (expressionStatement 20 (initParse c3Tokens)) =
      [OP_GET_GLOBAL, 0, OP_POP] := by
  refine ⟨rfl, rfl, rfl, rfl, by decide, by decide, by decide, by decide, by decide, by decide⟩

end Clox

